import Mathlib

/-!
Verification development for the snapback splitter pipeline (src/splitter.py).

The Python functions are shallowly embedded as executable Lean definitions:

* strings are Lean strings, with the handful of Python string operations
  (substring tests, split, strip, lower, slicing) re-implemented by
  structural recursion on the character list so that concrete runs reduce
  inside the kernel;
* Python dicts (which preserve insertion order) are association lists;
  `odUpd` models `defaultdict` access (update in place, append new key at
  the end) and `pyInsert` models plain `d[k] = v`;
* the mutable message dictionaries become a `Message` record; fields that
  the code reads with a default (`Media IDs`, `Created(microseconds)`,
  `media_filenames`) are plain fields whose initial value is that default;
* file mtimes are modelled in integer milliseconds (`int(st_mtime * 1000)`);
* exceptions become `Option` (`none` = the exception propagates);
* filesystem output is a list of `(path components, entry)` pairs; the
  contents of a copied file are identified by its source name and the
  contents of a generated `conversations.json` by the structured `DayData`
  value it serializes (serialization in the source is a deterministic
  function of that value).
-/

/-! ### Python-style string helpers (structural, kernel-computable) -/

/-- Is `p` a leading segment of `s`? (structural `List.isPrefixOf`). -/
def leadsWith : List Char → List Char → Bool
  | [], _ => true
  | _ :: _, [] => false
  | p :: ps, x :: xs => p == x && leadsWith ps xs

/-- Does `pat` occur as a contiguous sublist of `s`?  Models Python `pat in s`. -/
def hasSub (pat : List Char) : List Char → Bool
  | [] => leadsWith pat []
  | x :: xs => leadsWith pat (x :: xs) || hasSub pat xs

/-- Python `pat in s` on strings. -/
def strHas (s pat : String) : Bool := hasSub pat.data s.data

/-- Python `s[:n]`. -/
def strTake (s : String) (n : Nat) : String := ⟨s.data.take n⟩

/-- Python `s.lower()` (ASCII, which is all the marker strings use). -/
def lowerStr (s : String) : String := ⟨s.data.map Char.toLower⟩

/-- Python `s.strip()`. -/
def pyStrip (s : String) : String :=
  ⟨((s.data.dropWhile Char.isWhitespace).reverse.dropWhile Char.isWhitespace).reverse⟩

/-- Split a character list at every occurrence of `c`; models Python
`s.split(",")` (single-character separator). -/
def splitChar (c : Char) : List Char → List (List Char)
  | [] => [[]]
  | x :: xs =>
    match splitChar c xs with
    | [] => [[]]
    | h :: t => if x == c then [] :: h :: t else (x :: h) :: t

/-- Python `s.split(sep)` for a one-character separator. -/
def strSplit (s : String) (c : Char) : List String :=
  (splitChar c s.data).map (fun l => ⟨l⟩)

/-- Python `s.removeprefix("b~")`. -/
def stripBPrefixToken (s : String) : String :=
  if leadsWith ['b', '~'] s.data then ⟨s.data.drop 2⟩ else s

/-- Lexicographic comparison of code points, Python `str.__le__`. -/
def listLe : List Char → List Char → Bool
  | [], _ => true
  | _ :: _, [] => false
  | x :: xs, y :: ys => if x == y then listLe xs ys else decide (x < y)

/-- Python `a <= b` on strings. -/
def strLe (a b : String) : Bool := listLe a.data b.data

/-- Insert `a` into an already-sorted list, after every element `b` with
`le b a`; keeps earlier-inserted equal elements first. -/
def insertLe (le : α → α → Bool) (a : α) : List α → List α
  | [] => [a]
  | b :: bs => if le b a then b :: insertLe le a bs else a :: b :: bs

/-- Stable insertion sort.  Python `sorted` (Timsort) is also stable, and any
two stable sorts by the same key agree, so the results coincide. -/
def insSortBy (le : α → α → Bool) (l : List α) : List α :=
  l.foldl (fun acc a => insertLe le a acc) []

/-! ### Ordered-dict helpers -/

/-- Models `defaultdict` access-and-update: update an existing key in place, or
append `(k, f dflt)` at the end.  Models `d[k].mutate(...)` on a Python
`defaultdict` (insertion order preserved). -/
def odUpd : List (String × α) → String → (α → α) → α → List (String × α)
  | [], k, f, dflt => [(k, f dflt)]
  | (k', v) :: rest, k, f, dflt =>
    if k' = k then (k', f v) :: rest else (k', v) :: odUpd rest k f dflt

/-- Plain dict assignment `d[k] = v`: overwrite in place or append. -/
def pyInsert (l : List (String × α)) (k : String) (v : α) : List (String × α) :=
  if l.any (fun p => p.1 == k) then l.map (fun p => if p.1 = k then (k, v) else p)
  else l ++ [(k, v)]

/-- Dict lookup `d.get(k)` (first binding; keys are unique in dicts built by
`odUpd`/`pyInsert`). -/
def alookup (l : List (String × α)) (k : String) : Option α :=
  (l.find? (fun p => p.1 == k)).map (fun p => p.2)

/-- Dict lookup with default, `d.get(k, dflt)`. -/
def alookupD (l : List (String × α)) (k : String) (dflt : α) : α :=
  (alookup l k).getD dflt

/-! ### Calendar dates (`datetime.date` restricted to what the code uses) -/

structure YMD where
  y : Nat
  m : Nat
  d : Nat
deriving DecidableEq, Repr

def isLeap (y : Nat) : Bool := y % 4 == 0 && (y % 100 != 0 || y % 400 == 0)

def daysInMonth (y m : Nat) : Nat :=
  if m = 2 then (if isLeap y then 29 else 28)
  else if m = 4 ∨ m = 6 ∨ m = 9 ∨ m = 11 then 30
  else 31

/-- Python `d + timedelta(1)`. -/
def nextYMD (t : YMD) : YMD :=
  if t.d < daysInMonth t.y t.m then ⟨t.y, t.m, t.d + 1⟩
  else if t.m < 12 then ⟨t.y, t.m + 1, 1⟩
  else ⟨t.y + 1, 1, 1⟩

/-- Python `d + timedelta(-1)`. -/
def prevYMD (t : YMD) : YMD :=
  if 1 < t.d then ⟨t.y, t.m, t.d - 1⟩
  else if 1 < t.m then ⟨t.y, t.m - 1, daysInMonth t.y (t.m - 1)⟩
  else ⟨t.y - 1, 12, 31⟩

def digitVal (c : Char) : Option Nat :=
  if c.isDigit then some (c.toNat - 48) else none

/-- Models `date.fromisoformat` on the canonical `YYYY-MM-DD` shape (the shape the
code produces and feeds back in); any other input raises in the source,
modelled as `none`. -/
def parseYMD (s : String) : Option YMD :=
  match s.data with
  | [a, b, c, d, h1, e, f, h2, g, h] =>
    if h1 = '-' ∧ h2 = '-' then
      match digitVal a, digitVal b, digitVal c, digitVal d,
            digitVal e, digitVal f, digitVal g, digitVal h with
      | some a', some b', some c', some d', some e', some f', some g', some h' =>
        let y := ((a' * 10 + b') * 10 + c') * 10 + d'
        let mo := e' * 10 + f'
        let da := g' * 10 + h'
        if 1 ≤ y ∧ y ≤ 9999 ∧ 1 ≤ mo ∧ mo ≤ 12 ∧ 1 ≤ da ∧ da ≤ daysInMonth y mo
        then some ⟨y, mo, da⟩ else none
      | _, _, _, _, _, _, _, _ => none
    else none
  | _ => none

def digitChar (n : Nat) : Char := Char.ofNat (48 + n)

def pad2 (n : Nat) : List Char := [digitChar (n / 10 % 10), digitChar (n % 10)]

def pad4 (n : Nat) : List Char :=
  [digitChar (n / 1000 % 10), digitChar (n / 100 % 10), digitChar (n / 10 % 10), digitChar (n % 10)]

/-- Python `str(date)`: zero-padded ISO form. -/
def fmtYMD (t : YMD) : String := ⟨pad4 t.y ++ '-' :: (pad2 t.m ++ '-' :: pad2 t.d)⟩

/-! ### Data model -/

/-- One message dictionary.  Fields carry the defaults the code supplies when
reading them (`Media IDs` -> "", `Created(microseconds)` -> 0,
`media_filenames` -> []); the four output-assembly annotations are `Option`s
so that "key absent" and "key set" stay distinct in the serialized document. -/
structure Message where
  From : Option String := none
  mediaType : Option String := none
  Created : String := ""
  conversationTitle : Option String := none
  isSender : Bool := false
  createdUs : Int := 0
  content : Option String := none
  isSaved : Bool := false
  mediaIDs : String := ""
  type : String := ""
  mediaFilenames : List String := []
  mediaLocations : Option (List String) := none
  matchedMediaFiles : Option (List String) := none
  mappingMethod : Option String := none
  isGrouped : Option Bool := none
deriving DecidableEq, Repr

/-- One file of the extracted `chat_media/` pool: its filename and the
archive-recovered mtime in integer milliseconds (`int(st_mtime * 1000)`). -/
structure MediaFile where
  name : String
  mtimeMs : Int
deriving DecidableEq, Repr

/-- The `days[date][conv_id] = list of messages` structure with dict insertion order. -/
abbrev Days : Type := List (String × List (String × List Message))

/-! ### classify_media -/

/-- Python `re.search(r"_b~(.+)\.\w+$", name)` returning group 1.
The group runs from the first occurrence of the literal marker to the last
dot of the name, provided a non-empty all-word-character extension follows
that dot and the group itself is non-empty (leftmost match, greedy group). -/
def isWordChar (c : Char) : Bool := c.isAlphanum || c == '_'

/-- Suffix of `s` after the first occurrence of `pat` (none if absent). -/
def afterFirst (pat : List Char) : List Char → Option (List Char)
  | [] => none
  | x :: xs => if leadsWith pat (x :: xs) then some ((x :: xs).drop pat.length)
               else afterFirst pat xs

def extractBid (name : String) : Option String :=
  match afterFirst ['_', 'b', '~'] name.data with
  | none => none
  | some s =>
    let r := s.reverse
    let w := r.takeWhile isWordChar
    if w = [] then none
    else
      match r.drop w.length with
      | '.' :: g => if g = [] then none else some ⟨g.reverse⟩
      | _ => none

/-- The four per-day lists of the `groups` defaultdict. -/
structure GroupLists where
  media : List MediaFile := []
  overlay : List MediaFile := []
  mediaZip : List MediaFile := []
  overlayZip : List MediaFile := []
deriving DecidableEq, Repr

structure ClassAcc where
  bl : List (String × MediaFile)
  others : List MediaFile
  groups : List (String × GroupLists)
deriving DecidableEq, Repr

/-- One iteration of the classification loop over `media_dir` entries. -/
def classStep (acc : ClassAcc) (f : MediaFile) : ClassAcc :=
  if strHas (lowerStr f.name) "thumbnail" then acc
  else
    let day := strTake f.name 10
    let isZip := strHas f.name "~zip-"
    let addOv : GroupLists → GroupLists := fun g =>
      if isZip then { g with overlayZip := g.overlayZip ++ [f] }
      else { g with overlay := g.overlay ++ [f] }
    let addMed : GroupLists → GroupLists := fun g =>
      if isZip then { g with mediaZip := g.mediaZip ++ [f] }
      else { g with media := g.media ++ [f] }
    if strHas f.name "_overlay~" then
      { acc with groups := odUpd acc.groups day addOv {} }
    else if strHas f.name "_media~" then
      { acc with groups := odUpd acc.groups day addMed {}, others := acc.others ++ [f] }
    else
      match extractBid f.name with
      | some i => { acc with bl := pyInsert acc.bl i f }
      | none => acc

def sortByName (l : List MediaFile) : List MediaFile :=
  insSortBy (fun a b => strLe a.name b.name) l

/-- Pairing for one kind within one day-group: sort both lists by filename and
zip them only when the primary list is non-empty and the counts agree. -/
def pairFor (ms ov : List MediaFile) : List (String × MediaFile) :=
  let ms' := sortByName ms
  let ov' := sortByName ov
  if ms ≠ [] ∧ ms.length = ov.length then (ms'.map (fun m => m.name)).zip ov' else []

def groupPairs (g : GroupLists) : List (String × MediaFile) :=
  pairFor g.media g.overlay ++ pairFor g.mediaZip g.overlayZip

/-- The classification fold over the media pool (directory iteration order). -/
def classGroups (files : List MediaFile) : ClassAcc :=
  files.foldl classStep ⟨[], [], []⟩

/-- Models `classify_media`: returns the id -> file lookup, the residual primary
list, and the overlay pairing (as an association list; its keys are file
names, unique whenever pool names are unique). -/
def classify_media (files : List MediaFile) :
    List (String × MediaFile) × List MediaFile × List (String × MediaFile) :=
  let acc := classGroups files
  (acc.bl, acc.others, (acc.groups.map (fun p => groupPairs p.2)).flatten)

/-! ### build_days

The username set and the group-member descriptors feed only `index.json`,
which is outside the correlated output; they are omitted here.  The day
bucketing and the group-title map (used by the output assembler) are kept. -/

/-- Python `m["Created"][:10]`. -/
def dayOfMsg (m : Message) : String := strTake m.Created 10

/-- Append one message to `days[day][conv]` (both levels are defaultdicts). -/
def addMsg (d : Days) (cid : String) (m : Message) : Days :=
  odUpd d (dayOfMsg m) (fun conv => odUpd conv cid (fun l => l ++ [m]) []) []

/-- Python truthiness of an optional string. -/
def pyTruthy (o : Option String) : Bool :=
  match o with
  | some t => t ≠ ""
  | none => false

/-- Python `a or b` under string truthiness. -/
def pyOr (a b : Option String) : Option String := if pyTruthy a then a else b

/-- The chat loop tags each message with `Type = "message"`. -/
def chatTag (m : Message) : Message := { m with type := "message" }

/-- First truthy `Conversation Title` of a conversation, as the chat loop
accumulates it (`title = title or m.get("Conversation Title")`). -/
def firstTitle (msgs : List Message) : Option String :=
  msgs.foldl (fun t m => pyOr t m.conversationTitle) none

/-- Python `title or c_id`. -/
def titleOrId (t : Option String) (cid : String) : String :=
  match t with
  | some s => if s = "" then cid else s
  | none => cid

/-- Chat-history phase of build_days: bucket messages, collect group titles. -/
def buildChat (chat : List (String × List Message)) : Days × List (String × String) :=
  chat.foldl
    (fun acc p =>
      let d' := p.2.foldl (fun d m => addMsg d p.1 (chatTag m)) acc.1
      let g' := if strHas p.1 "-" then pyInsert acc.2 p.1 (titleOrId (firstTitle p.2) p.1)
                else acc.2
      (d', g'))
    ([], [])

/-- Projection of a snap record onto the fixed key set merged with defaults
(`{k: m.get(k) for k in SNAP_KEYS} | SNAP_DEFAULTS`). -/
def snapProject (m : Message) : Message :=
  { From := m.From, mediaType := m.mediaType, Created := m.Created,
    conversationTitle := m.conversationTitle, isSender := m.isSender,
    createdUs := m.createdUs, content := none, isSaved := false,
    mediaIDs := "", type := "snap" }

/-- Snap-history phase: bucket projected snaps, back-fill missing titles. -/
def buildSnap (snap : List (String × List Message)) (st : Days × List (String × String)) :
    Days × List (String × String) :=
  snap.foldl
    (fun acc p =>
      p.2.foldl
        (fun st2 m =>
          let d' := addMsg st2.1 p.1 (snapProject m)
          let g' :=
            if strHas p.1 "-" ∧ alookup st2.2 p.1 = none then
              match m.conversationTitle with
              | some t => if t = "" then st2.2 else pyInsert st2.2 p.1 t
              | none => st2.2
            else st2.2
          (d', g'))
        acc)
    st

/-- Models `build_days` (days structure and group-title map). -/
def build_days (chat snap : List (String × List Message)) :
    Days × List (String × String) :=
  buildSnap snap (buildChat chat)

/-! ### match_media -/

/-- Python `[i.strip().removeprefix("b~") for i in m.get("Media IDs", "").split(",") if i.strip()]`. -/
def parseIds (s : String) : List String :=
  (strSplit s ',').filterMap (fun i =>
    let t := pyStrip i
    if t = "" then none else some (stripBPrefixToken t))

/-- Python `msgs.sort(key=lambda x: x.get("Created(microseconds)", 0))` (stable). -/
def sortMsgs (msgs : List Message) : List Message :=
  insSortBy (fun a b => decide (a.createdUs ≤ b.createdUs)) msgs

/-- Pass 1 on one message: append the filename of every id hit in the
lookup, in id order. -/
def pass1Msg (bl : List (String × MediaFile)) (m : Message) : Message :=
  { m with mediaFilenames :=
      m.mediaFilenames ++
        (parseIds m.mediaIDs).filterMap (fun i => (alookup bl i).map (fun f => f.name)) }

/-- Pass 1 over the whole days structure (each conversation is first sorted
ascending by `Created(microseconds)`, in place). -/
def pass1Days (bl : List (String × MediaFile)) (d : Days) : Days :=
  d.map (fun p => (p.1, p.2.map (fun q => (q.1, (sortMsgs q.2).map (pass1Msg bl)))))

/-- Ids of one message found in the lookup (the ids pass 1 adds to
`matched_b`). -/
def msgMatchedIds (bl : List (String × MediaFile)) (m : Message) : List String :=
  (parseIds m.mediaIDs).filter (fun i => (alookup bl i).isSome)

/-- The `matched_b` set, as the list of all hits (membership is all that is
ever used of it, so collection order is irrelevant). -/
def pass1MatchedB (bl : List (String × MediaFile)) (d : Days) : List String :=
  ((d.map (fun p => (p.2.map (fun q => (q.2.map (msgMatchedIds bl)).flatten)).flatten)).flatten)

/-- Pass-2 candidate list: unconsumed lookup files (in lookup insertion
order) then the residual files, each as (day-of-name, mtime ms, name). -/
def tsFiles (bl : List (String × MediaFile)) (matchedB : List String)
    (others : List MediaFile) : List (String × Int × String) :=
  (bl.filter (fun p => ! matchedB.contains p.1)).map
      (fun p => (strTake p.2.name 10, p.2.mtimeMs, p.2.name))
    ++ others.map (fun f => (strTake f.name 10, f.mtimeMs, f.name))

/-- Position of a message inside the days structure (the engine holds a
reference to the best dict; a reference is a position here). -/
structure Loc where
  day : String
  conv : String
  idx : Nat
deriving DecidableEq, Repr

/-- Python `days.get(target, {}).values()`, each message with its position. -/
def scanDay (d : Days) (target : String) : List (Loc × Message) :=
  match alookup d target with
  | none => []
  | some convs =>
    (convs.map (fun q => q.2.enum.map (fun im => (Loc.mk target q.1 im.1, im.2)))).flatten

/-- Python `str(date.fromisoformat(day) + timedelta(offset))` for offsets 0, -1, 1;
an unparsable day prefix raises in the source (modelled by `none`). -/
def dayTargets (day : String) : Option (List String) :=
  (parseYMD day).map (fun t => [fmtYMD t, fmtYMD (prevYMD t), fmtYMD (nextYMD t)])

/-- All candidate messages scanned for one file, in encounter order. -/
def pass2Scan (d : Days) (targets : List String) : List (Loc × Message) :=
  (targets.map (scanDay d)).flatten

/-- Python `abs(m.get("Created(microseconds)", 0) - mtime_ms)`: the raw
time-difference of pass 2. -/
def realOf (mtimeMs : Int) (m : Message) : Nat := (m.createdUs - mtimeMs).natAbs

/-- Python `real_diff + len(m.get("media_filenames", [])) * 5_000`: the ranked
score of pass 2. -/
def rankedOf (mtimeMs : Int) (m : Message) : Nat :=
  realOf mtimeMs m + m.mediaFilenames.length * 5000

/-- One comparison of the selection loop (`if ranked_diff < best_diff`;
`best_diff` starts at infinity, so the first candidate always wins). -/
def selStep (mtimeMs : Int) (acc : Option (Loc × Nat × Nat)) (c : Loc × Message) :
    Option (Loc × Nat × Nat) :=
  match acc with
  | none => some (c.1, rankedOf mtimeMs c.2, realOf mtimeMs c.2)
  | some (l, bd, br) =>
    if rankedOf mtimeMs c.2 < bd then some (c.1, rankedOf mtimeMs c.2, realOf mtimeMs c.2)
    else some (l, bd, br)

/-- The selection loop: best location, its ranked score, its raw difference. -/
def pass2Select (cands : List (Loc × Message)) (mtimeMs : Int) : Option (Loc × Nat × Nat) :=
  cands.foldl (selStep mtimeMs) none

def appendName (fname : String) (m : Message) : Message :=
  { m with mediaFilenames := m.mediaFilenames ++ [fname] }

def modifyIdx : List α → Nat → (α → α) → List α
  | [], _, _ => []
  | x :: xs, 0, f => f x :: xs
  | x :: xs, n + 1, f => x :: modifyIdx xs n f

/-- Python `best.setdefault("media_filenames", []).append(f.name)` through the
reference: append at the recorded position. -/
def appendAt (d : Days) (loc : Loc) (fname : String) : Days :=
  odUpd d loc.day
    (fun conv => odUpd conv loc.conv (fun msgs => modifyIdx msgs loc.idx (appendName fname)) [])
    []

/-- Pass 2 for one candidate file `(day, mtime_ms, name)`. -/
def pass2Step (d : Days) (e : String × Int × String) : Option Days :=
  match dayTargets e.1 with
  | none => none
  | some ts =>
    some
      (match pass2Select (pass2Scan d ts) e.2.1 with
       | some (loc, _, br) => if br ≤ 30000 then appendAt d loc e.2.2 else d
       | none => d)

/-- Pass 2 over all candidate files. -/
def pass2 (d : Days) (tsf : List (String × Int × String)) : Option Days :=
  tsf.foldlM pass2Step d

/-! ### write_output -/

/-- Python `pathlib.Path(name).suffix`. -/
def sufOf (name : String) : String :=
  let r := name.data.reverse
  let w := r.takeWhile (fun c => c ≠ '.')
  if w = [] then ""
  else
    match r.drop w.length with
    | '.' :: rest => if rest = [] then "" else ⟨'.' :: w.reverse⟩
    | _ => ""

/-- Python `pathlib.Path(name).stem`. -/
def stemOf (name : String) : String :=
  let s := sufOf name
  if s = "" then name else ⟨name.data.take (name.data.length - s.data.length)⟩

/-- Python `s.lstrip(".")`. -/
def lstripDots (s : String) : String := ⟨s.data.dropWhile (fun c => c == '.')⟩

/-- Models `_media_type`. -/
def mediaTypeOf (ext0 : String) : String :=
  let e := lstripDots (lowerStr ext0)
  if e = "jpg" ∨ e = "jpeg" ∨ e = "png" ∨ e = "gif" ∨ e = "webp" then "IMAGE"
  else if e = "mp4" ∨ e = "mov" ∨ e = "avi" ∨ e = "webm" then "VIDEO"
  else if e = "mp3" ∨ e = "aac" ∨ e = "m4a" ∨ e = "wav" ∨ e = "ogg" then "AUDIO"
  else "IMAGE"

/-- One row of the per-day orphan report. -/
structure Orphan where
  path : String
  filename : String
  mtype : String
  extension : String
deriving DecidableEq, Repr

/-- One element of the serialized `conversations` array. -/
structure ConvEntry where
  id : String
  conversationId : String
  conversationType : String
  messages : List Message
  groupName : Option String
deriving DecidableEq, Repr

structure DayStats where
  conversationCount : Nat
  messageCount : Nat
  mediaCount : Nat
deriving DecidableEq, Repr

/-- The structured content of one day's `conversations.json`. -/
structure DayData where
  date : String
  stats : DayStats
  conversations : List ConvEntry
  orphanedMediaCount : Nat
  orphanedMedia : List Orphan
deriving DecidableEq, Repr

/-- Content written at an output path: a copied pool file (identified by its
source name) or a serialized day document. -/
inductive Entry where
  | mediaCopy (srcName : String)
  | doc (d : DayData)
deriving DecidableEq, Repr

/-- The output tree under `output/`: path components (relative to `output/`)
with the entry written there. -/
abbrev FS := List (List String × Entry)

/-- Per matched filename: its relative location, the name recorded in
`matched_media_files`, and the overlay-grouped flag; `none` when the source
file is absent from the pool (the `src.exists()` skip). -/
def rowOf (poolNames : List String) (pairs : List (String × MediaFile)) (fname : String) :
    Option (String × String × Bool) :=
  if poolNames.contains fname then
    match alookup pairs fname with
    | some _ => some ("media/" ++ stemOf fname, stemOf fname, true)
    | none => some ("media/" ++ fname, fname, false)
  else none

/-- Files copied for one matched filename of a day's message. -/
def copiesOf (poolNames : List String) (pairs : List (String × MediaFile))
    (day fname : String) : FS :=
  if poolNames.contains fname then
    match alookup pairs fname with
    | some ov =>
      [(["days", day, "media", stemOf fname, fname], Entry.mediaCopy fname),
       (["days", day, "media", stemOf fname, ov.name], Entry.mediaCopy ov.name)]
    | none => [(["days", day, "media", fname], Entry.mediaCopy fname)]
  else []

/-- The in-place annotation of a message with a non-empty resolved list
(`media_locations`, `matched_media_files`, `mapping_method`, `is_grouped`). -/
def enrichMsg (poolNames : List String) (pairs : List (String × MediaFile))
    (m : Message) : Message :=
  let rows := m.mediaFilenames.filterMap (rowOf poolNames pairs)
  if rows = [] then m
  else
    { m with
        mediaLocations := some (rows.map (fun r => r.1)),
        matchedMediaFiles := some (rows.map (fun r => r.2.1)),
        mappingMethod := some (if pyStrip m.mediaIDs ≠ "" then "media_id" else "timestamp"),
        isGrouped := some (rows.any (fun r => r.2.2)) }

/-- Matched filenames of one message that exist in the pool (the ones that
get copied, counted, and added to the mapped sets). -/
def presentNames (poolNames : List String) (m : Message) : List String :=
  m.mediaFilenames.filter (fun f => poolNames.contains f)

/-- Models `media_by_day`: all pool-inventory files indexed by date prefix, then by
name. -/
def mediaByDay (allMedia : List MediaFile) : List (String × List (String × MediaFile)) :=
  allMedia.foldl
    (fun acc f => odUpd acc (strTake f.name 10) (fun inner => pyInsert inner f.name f) []) []

/-- Python `sorted(media_by_day.get(day, {}).items())`. -/
def orphanItems (mbd : List (String × List (String × MediaFile))) (day : String) :
    List (String × MediaFile) :=
  insSortBy (fun a b => strLe a.1 b.1) (alookupD mbd day [])

/-- The day's mapped set (`day_mapped`), in copy order. -/
def dayMappedOf (poolNames : List String) (convs : List (String × List Message)) :
    List String :=
  (convs.map (fun q => (q.2.map (presentNames poolNames)).flatten)).flatten

/-- The day's orphans: inventory files of the day, sorted by name, minus the
day's mapped set. -/
def dayOrphans (mbd : List (String × List (String × MediaFile))) (day : String)
    (dayMapped : List String) : List MediaFile :=
  ((orphanItems mbd day).filter (fun p => ! dayMapped.contains p.1)).map (fun p => p.2)

def orphanRow (f : MediaFile) : Orphan :=
  let e := lstripDots (sufOf f.name)
  { path := "orphaned/" ++ f.name, filename := f.name, mtype := mediaTypeOf e, extension := e }

def convEntryOf (poolNames : List String) (pairs : List (String × MediaFile))
    (gts : List (String × String)) (cid : String) (msgs : List Message) : ConvEntry :=
  let isGroup := strHas cid "-"
  { id := cid, conversationId := cid,
    conversationType := if isGroup then "group" else "individual",
    messages := msgs.map (enrichMsg poolNames pairs),
    groupName := if isGroup then some (alookupD gts cid cid) else none }

def dayMsgCount (convs : List (String × List Message)) : Nat :=
  (convs.map (fun q => q.2.length)).sum

/-- The day's serialized document. -/
def dayDataOf (poolNames : List String) (pairs : List (String × MediaFile))
    (gts : List (String × String)) (mbd : List (String × List (String × MediaFile)))
    (day : String) (convs : List (String × List Message)) : DayData :=
  let dm := dayMappedOf poolNames convs
  let orphans := (dayOrphans mbd day dm).map orphanRow
  { date := day,
    stats := { conversationCount := convs.length, messageCount := dayMsgCount convs,
               mediaCount := dm.length },
    conversations := convs.map (fun q => convEntryOf poolNames pairs gts q.1 q.2),
    orphanedMediaCount := orphans.length,
    orphanedMedia := orphans }

/-- Matched-media copies of one day, in conversation/message/file order. -/
def dayCopies (poolNames : List String) (pairs : List (String × MediaFile))
    (day : String) (convs : List (String × List Message)) : FS :=
  (convs.map (fun q =>
    (q.2.map (fun m => (m.mediaFilenames.map (copiesOf poolNames pairs day)).flatten)).flatten)).flatten

/-- Everything one day writes: media copies, orphan copies, the document. -/
def dayGen (poolNames : List String) (pairs : List (String × MediaFile))
    (gts : List (String × String)) (mbd : List (String × List (String × MediaFile)))
    (day : String) (convs : List (String × List Message)) : FS :=
  dayCopies poolNames pairs day convs
    ++ ((dayOrphans mbd day (dayMappedOf poolNames convs)).map
        (fun f => (["days", day, "orphaned", f.name], Entry.mediaCopy f.name)))
    ++ [(["days", day, "conversations.json"], Entry.doc (dayDataOf poolNames pairs gts mbd day convs))]

/-- The message annotations applied to one day's conversations. -/
def enrichConvs (poolNames : List String) (pairs : List (String × MediaFile))
    (convs : List (String × List Message)) : List (String × List Message) :=
  convs.map (fun q => (q.1, q.2.map (enrichMsg poolNames pairs)))

/-- The message annotations applied across the whole days structure. -/
def enrichDays (poolNames : List String) (pairs : List (String × MediaFile)) (d : Days) : Days :=
  d.map (fun p => (p.1, enrichConvs poolNames pairs p.2))

/-- Python `sorted(days.items())` (string keys, lexicographic). -/
def sortedDays (d : Days) : Days := insSortBy (fun a b => strLe a.1 b.1) d

/-- Results of `write_output`: the (mutated) days structure, the generated
output tree, the global `mapped_names`, and the day-file count. -/
structure OutRes where
  days : Days
  gen : FS
  mapped : List String
  nfiles : Nat
deriving DecidableEq, Repr

def write_output (d : Days) (pairs : List (String × MediaFile)) (poolNames : List String)
    (gts : List (String × String)) (allMedia : List MediaFile) : OutRes :=
  let mbd := mediaByDay allMedia
  let sd := sortedDays d
  { days := enrichDays poolNames pairs d,
    gen := (sd.map (fun p => dayGen poolNames pairs gts mbd p.1 p.2)).flatten,
    mapped := (sd.map (fun p => dayMappedOf poolNames p.2)).flatten,
    nfiles := sd.length }

/-- Is a path inside the wiped `output/days` folder? -/
def underDaysDir (p : List String) : Bool :=
  match p with
  | "days" :: _ => true
  | _ => false

/-- Models `write_output` as a filesystem transformer: wipe `days/`, regenerate. -/
def writeOutputFS (d : Days) (pairs : List (String × MediaFile)) (poolNames : List String)
    (gts : List (String × String)) (allMedia : List MediaFile) (fs : FS) : OutRes × FS :=
  let r := write_output d pairs poolNames gts allMedia
  (r, fs.filter (fun e => ! underDaysDir e.1) ++ r.gen)

/-! ### The correlated part of main (extraction and index.json aside) -/

/-- classify -> build days -> pass 1 -> pass 2 -> write output.  `none` when
pass 2 hits a candidate whose day prefix does not parse (the source raises
there). -/
def runPipeline (files : List MediaFile) (chat snap : List (String × List Message)) :
    Option OutRes :=
  let c := classify_media files
  let bg := build_days chat snap
  let days1 := pass1Days c.1 bg.1
  let mb := pass1MatchedB c.1 bg.1
  let tsf := tsFiles c.1 mb c.2.1
  (pass2 days1 tsf).map (fun days2 =>
    write_output days2 c.2.2 (files.map (fun f => f.name)) bg.2
      (c.1.map (fun p => p.2) ++ c.2.1))

/-! ### get_local_mtime (zip local-header extended timestamp)

The function's raw-file seek merely locates the entry's local-header extra
field; the embedding takes those extra-field bytes directly, together with
the already-converted `time.mktime(info.date_time + (0, 0, -1))` fallback
value.  Every exception inside the `try` block (truncated reads, missing
bytes) is caught in the source and falls through to the fallback; here the
scan returns `none` in exactly those situations. -/

/-- Python `struct.unpack_from("<H", b, i)`. -/
def readU16 (b : List Nat) (i : Nat) : Option Nat :=
  match b.get? i, b.get? (i + 1) with
  | some lo, some hi => some (lo + 256 * hi)
  | _, _ => none

/-- Python `struct.unpack_from("<I", b, i)`. -/
def readU32 (b : List Nat) (i : Nat) : Option Nat :=
  match readU16 b i, readU16 b (i + 2) with
  | some lo, some hi => some (lo + 65536 * hi)
  | _, _ => none

/-- The `while i + 4 <= len(extra)` scan over the extra-field records:
`some v` when the loop returns a UTC value, `none` when it falls off the end
or an exception is raised (both take the fallback in the source). -/
def scanExtra (extra : List Nat) (i : Nat) : Option Nat :=
  if _h : i + 4 ≤ extra.length then
    match readU16 extra i, readU16 extra (i + 2) with
    | some tag, some size =>
      if tag = 0x5455 ∧ 5 ≤ size then
        match extra.get? (i + 4) with
        | none => none
        | some flag => if flag % 2 = 1 then readU32 extra (i + 5) else scanExtra extra (i + 4 + size)
      else scanExtra extra (i + 4 + size)
    | _, _ => none
  else none
termination_by extra.length - i
decreasing_by all_goals omega

/-- Models `get_local_mtime`, over the entry's extra-field bytes and the coarse
local-time fallback. -/
def get_local_mtime (extra : List Nat) (coarse : Int) : Int :=
  match scanExtra extra 0 with
  | some v => (v : Int)
  | none => coarse

/-- A well-formed extended-timestamp record sits at offset `i`: readable tag
equal to 0x5455, declared size at least 5, flag bit 0 set, and the five
declared payload bytes actually present. -/
def goodAt (extra : List Nat) (i : Nat) : Bool :=
  match readU16 extra i, readU16 extra (i + 2), extra.get? (i + 4) with
  | some tag, some size, some flag =>
    tag == 0x5455 && decide (5 ≤ size) && flag % 2 == 1 && decide (i + 9 ≤ extra.length)
  | _, _, _ => false

/-- Offsets the record-chain walk actually reaches from the start of the
extra field (each skipped record is either not an extended-timestamp hit or
has its flag bit clear). -/
inductive ChainTo (extra : List Nat) : Nat → Prop where
  | base : ChainTo extra 0
  | step {i tag size : Nat} :
      ChainTo extra i → i + 4 ≤ extra.length →
      readU16 extra i = some tag → readU16 extra (i + 2) = some size →
      (tag = 0x5455 ∧ 5 ≤ size → ∃ flag, extra.get? (i + 4) = some flag ∧ flag % 2 = 0) →
      ChainTo extra (i + 4 + size)

/-! ### Counting and flattening helpers for the statements -/

/-- Number of messages of a list whose matched list contains `n`. -/
def countIn (msgs : List Message) (n : String) : Nat :=
  msgs.countP (fun m => decide (n ∈ m.mediaFilenames))

def countConv (conv : List (String × List Message)) (n : String) : Nat :=
  (conv.map (fun q => countIn q.2 n)).sum

/-- Number of messages across the whole days structure whose matched list
contains `n`. -/
def msgsContaining (d : Days) (n : String) : Nat :=
  (d.map (fun p => countConv p.2 n)).sum

/-- All `(conv id, message)` pairs of one day bucket. -/
def convFlatten (conv : List (String × List Message)) : List (String × Message) :=
  (conv.map (fun q => q.2.map (fun m => (q.1, m)))).flatten

/-- All `(conv id, message)` pairs of the days structure. -/
def daysFlatten (d : Days) : List (String × Message) :=
  (d.map (fun p => convFlatten p.2)).flatten

/-- The `(conv id, message)` pairs the chat phase feeds into the buckets. -/
def chatFlat (chat : List (String × List Message)) : List (String × Message) :=
  (chat.map (fun p => p.2.map (fun m => (p.1, chatTag m)))).flatten

/-- The `(conv id, message)` pairs the snap phase feeds into the buckets. -/
def snapFlat (snap : List (String × List Message)) : List (String × Message) :=
  (snap.map (fun p => p.2.map (fun m => (p.1, snapProject m)))).flatten

/-- The day documents contained in an output tree. -/
def docsOf (gen : FS) : List DayData :=
  gen.filterMap (fun e =>
    match e.2 with
    | Entry.doc dd => some dd
    | Entry.mediaCopy _ => none)

def orphanNamesOf (dd : DayData) : List String :=
  dd.orphanedMedia.map (fun o => o.filename)

/-- Total occurrences of `n` across all day documents' orphan lists. -/
def orphanOcc (gen : FS) (n : String) : Nat :=
  ((docsOf gen).map (fun dd => (orphanNamesOf dd).count n)).sum

/-- The accounting property claimed for a finished run: the file's name sits
in exactly one message's matched list and no orphan list, or in no matched
list and exactly one orphan list. -/
abbrev accountedOnce (res : OutRes) (n : String) : Prop :=
  (msgsContaining res.days n = 1 ∧ orphanOcc res.gen n = 0) ∨
  (msgsContaining res.days n = 0 ∧ orphanOcc res.gen n = 1)

/-- Names the classification loop leaves out of the correlated inventory:
thumbnails (case-insensitive), overlays, and files matching no pattern. -/
def excludedName (n : String) : Bool :=
  strHas (lowerStr n) "thumbnail" || strHas n "_overlay~" ||
    (! strHas n "_media~" && (extractBid n).isNone)

/-- Modelled from the spec: the raw time-difference as C3 words it, with the
`Created(microseconds)` field (an integer microsecond timestamp, per the
spec) first expressed in milliseconds before subtracting the file's mtime
in milliseconds. -/
def specMsDiff (m : Message) (mtimeMs : Int) : Nat :=
  (m.createdUs / 1000 - mtimeMs).natAbs

/-! ## Theorems -/

open List

/-! ### Lemmas about the extra-field scan -/

theorem readU16_bound {b : List Nat} {i x : Nat} (h : readU16 b i = some x) :
    i + 2 ≤ b.length := by
  unfold readU16 at h
  cases h1 : b.get? i with
  | none => rw [h1] at h; cases h
  | some lo =>
    cases h2 : b.get? (i + 1) with
    | none => rw [h1, h2] at h; cases h
    | some hi =>
      obtain ⟨hlt, -⟩ := List.get?_eq_some.mp h2
      omega

theorem readU32_bound {b : List Nat} {i x : Nat} (h : readU32 b i = some x) :
    i + 4 ≤ b.length := by
  unfold readU32 at h
  cases h1 : readU16 b i with
  | none => rw [h1] at h; cases h
  | some lo =>
    cases h2 : readU16 b (i + 2) with
    | none => rw [h1, h2] at h; cases h
    | some hi => have := readU16_bound h2; omega

theorem readU16_isSome {b : List Nat} {i : Nat} (h : i + 2 ≤ b.length) :
    ∃ x, readU16 b i = some x := by
  unfold readU16
  cases h1 : b.get? i with
  | none => have := List.get?_eq_none.mp h1; omega
  | some lo =>
    cases h2 : b.get? (i + 1) with
    | none => have := List.get?_eq_none.mp h2; omega
    | some hi => exact ⟨lo + 256 * hi, rfl⟩

theorem readU32_isSome {b : List Nat} {i : Nat} (h : i + 4 ≤ b.length) :
    ∃ x, readU32 b i = some x := by
  obtain ⟨lo, h1⟩ := readU16_isSome (b := b) (i := i) (by omega)
  obtain ⟨hi, h2⟩ := readU16_isSome (b := b) (i := i + 2) (by omega)
  exact ⟨lo + 65536 * hi, by unfold readU32; rw [h1, h2]⟩

theorem scanExtra_step {extra : List Nat} {i tag size : Nat}
    (hlen : i + 4 ≤ extra.length) (htag : readU16 extra i = some tag)
    (hsize : readU16 extra (i + 2) = some size)
    (hflag : tag = 0x5455 ∧ 5 ≤ size → ∃ flag, extra.get? (i + 4) = some flag ∧ flag % 2 = 0) :
    scanExtra extra i = scanExtra extra (i + 4 + size) := by
  rw [scanExtra.eq_def]
  rw [dif_pos hlen]
  simp only [htag, hsize]
  by_cases hts : tag = 0x5455 ∧ 5 ≤ size
  · obtain ⟨flag, hf, hf2⟩ := hflag hts
    rw [if_pos hts]
    simp only [hf]
    rw [if_neg (by omega)]
  · rw [if_neg hts]

theorem scanExtra_chain {extra : List Nat} {i : Nat} (h : ChainTo extra i) :
    scanExtra extra 0 = scanExtra extra i := by
  induction h with
  | base => rfl
  | step hc hlen htag hsize hflag ih => rw [ih]; exact scanExtra_step hlen htag hsize hflag

theorem scanExtra_good {extra : List Nat} {i : Nat} (hg : goodAt extra i = true) :
    ∃ v, readU32 extra (i + 5) = some v ∧ scanExtra extra i = some v := by
  unfold goodAt at hg
  split at hg
  case h_2 => cases hg
  case h_1 tag size flag htag hsize hflag =>
    simp only [Bool.and_eq_true, beq_iff_eq, decide_eq_true_eq] at hg
    obtain ⟨⟨⟨htag', hsize'⟩, hbit⟩, hbound⟩ := hg
    obtain ⟨v, hv⟩ := readU32_isSome (b := extra) (i := i + 5) (by omega)
    refine ⟨v, hv, ?_⟩
    rw [scanExtra.eq_def, dif_pos (by omega : i + 4 ≤ extra.length)]
    simp only [htag, hsize]
    rw [if_pos ⟨htag', hsize'⟩]
    simp only [hflag]
    rw [if_pos hbit, hv]

theorem scanExtra_some_reaches (extra : List Nat) :
    ∀ n i v, extra.length - i ≤ n → ChainTo extra i → scanExtra extra i = some v →
      ∃ j, ChainTo extra j ∧ goodAt extra j = true ∧ readU32 extra (j + 5) = some v := by
  intro n
  induction n with
  | zero =>
    intro i v hle hch hscan
    rw [scanExtra.eq_def, dif_neg (by omega)] at hscan
    cases hscan
  | succ n ih =>
    intro i v hle hch hscan
    rw [scanExtra.eq_def] at hscan
    by_cases hlen : i + 4 ≤ extra.length
    · rw [dif_pos hlen] at hscan
      split at hscan
      next tag size htag hsize =>
        by_cases hts : tag = 0x5455 ∧ 5 ≤ size
        · rw [if_pos hts] at hscan
          split at hscan
          next => cases hscan
          next flag hf =>
            by_cases hbit : flag % 2 = 1
            · rw [if_pos hbit] at hscan
              refine ⟨i, hch, ?_, hscan⟩
              have hb := readU32_bound hscan
              unfold goodAt
              simp only [htag, hsize, hf, Bool.and_eq_true, beq_iff_eq, decide_eq_true_eq]
              exact ⟨⟨⟨hts.1, hts.2⟩, by omega⟩, by omega⟩
            · rw [if_neg hbit] at hscan
              exact ih (i + 4 + size) v (by omega)
                (ChainTo.step hch hlen htag hsize (fun _ => ⟨flag, hf, by omega⟩)) hscan
        · rw [if_neg hts] at hscan
          exact ih (i + 4 + size) v (by omega)
            (ChainTo.step hch hlen htag hsize (fun h => absurd h hts)) hscan
      next => cases hscan
    · rw [dif_neg hlen] at hscan
      cases hscan

/-- C6: an entry whose extra field holds a reachable well-formed
extended-timestamp record (tag 0x5455, size at least 5, flag bit set,
payload bytes present) recovers exactly the record's 32-bit little-endian
UTC-seconds value; with no such reachable record — including every case in
which the scan raises — the recovered mtime is the coarse stored date-time
converted via local-time semantics (the `coarse` argument), and the
function is total, so it never raises. -/
theorem get_local_mtime_correct (extra : List Nat) (coarse : Int) :
    (∀ i, ChainTo extra i → goodAt extra i = true →
      get_local_mtime extra coarse = ((readU32 extra (i + 5)).getD 0 : Nat)) ∧
    ((¬ ∃ i, ChainTo extra i ∧ goodAt extra i = true) →
      get_local_mtime extra coarse = coarse) := by
  constructor
  · intro i hch hg
    obtain ⟨v, hv, hscan⟩ := scanExtra_good hg
    unfold get_local_mtime
    rw [scanExtra_chain hch, hscan, hv]
    rfl
  · intro hno
    unfold get_local_mtime
    cases hscan : scanExtra extra 0 with
    | none => rfl
    | some v =>
      obtain ⟨j, hch, hg, _⟩ :=
        scanExtra_some_reaches extra extra.length 0 v (by omega) ChainTo.base hscan
      exact absurd ⟨j, hch, hg⟩ hno

/-- C6 witness: a concrete nine-byte extra field consisting of one
well-formed record; the recovered mtime is its encoded value 0x40302010. -/
theorem get_local_mtime_correct_wit :
    ChainTo [0x55, 0x54, 5, 0, 1, 0x10, 0x20, 0x30, 0x40] 0 ∧
    goodAt [0x55, 0x54, 5, 0, 1, 0x10, 0x20, 0x30, 0x40] 0 = true ∧
    get_local_mtime [0x55, 0x54, 5, 0, 1, 0x10, 0x20, 0x30, 0x40] 77 = 1076895760 := by
  refine ⟨ChainTo.base, by decide, ?_⟩
  have h := (get_local_mtime_correct [0x55, 0x54, 5, 0, 1, 0x10, 0x20, 0x30, 0x40] 77).1
    0 ChainTo.base (by decide)
  rw [h]
  decide

/-! ### Lemmas about the pass-2 selection loop -/

theorem selFold_mem (mt : Int) (cands : List (Loc × Message)) :
    ∀ acc loc bd br, cands.foldl (selStep mt) acc = some (loc, bd, br) →
      (∃ m, (loc, m) ∈ cands ∧ bd = rankedOf mt m ∧ br = realOf mt m) ∨
        acc = some (loc, bd, br) := by
  induction cands with
  | nil => intro acc loc bd br h; exact Or.inr h
  | cons c cs ih =>
    intro acc loc bd br h
    rcases ih _ _ _ _ h with ⟨m, hm, e1, e2⟩ | hacc
    · exact Or.inl ⟨m, List.mem_cons_of_mem _ hm, e1, e2⟩
    · unfold selStep at hacc
      split at hacc
      · have h' := Option.some.inj hacc
        have h1 : c.1 = loc := congrArg Prod.fst h'
        have h2 : rankedOf mt c.2 = bd := congrArg (fun p => p.2.1) h'
        have h3 : realOf mt c.2 = br := congrArg (fun p => p.2.2) h'
        refine Or.inl ⟨c.2, ?_, h2.symm, h3.symm⟩
        rw [← h1]
        exact List.mem_cons_self _ _
      · rename_i l b r
        by_cases hlt : rankedOf mt c.2 < b
        · rw [if_pos hlt] at hacc
          have h' := Option.some.inj hacc
          have h1 : c.1 = loc := congrArg Prod.fst h'
          have h2 : rankedOf mt c.2 = bd := congrArg (fun p => p.2.1) h'
          have h3 : realOf mt c.2 = br := congrArg (fun p => p.2.2) h'
          refine Or.inl ⟨c.2, ?_, h2.symm, h3.symm⟩
          rw [← h1]
          exact List.mem_cons_self _ _
        · rw [if_neg hlt] at hacc
          exact Or.inr hacc

/-- C3 (amended): the raw time-difference pass 2 attaches to the selected
message is the absolute difference between the raw `Created(microseconds)`
field value and the file mtime in milliseconds, with no microsecond-to-
millisecond conversion of the field; the ranked score adds 5000 per
already-matched file. -/
theorem pass2_raw_diff (cands : List (Loc × Message)) (mt : Int) (loc : Loc) (bd br : Nat)
    (h : pass2Select cands mt = some (loc, bd, br)) :
    ∃ m, (loc, m) ∈ cands ∧ br = (m.createdUs - mt).natAbs ∧
      bd = (m.createdUs - mt).natAbs + m.mediaFilenames.length * 5000 := by
  rcases selFold_mem mt cands none loc bd br h with ⟨m, hm, e1, e2⟩ | hacc
  · exact ⟨m, hm, e2, e1⟩
  · cases hacc

/-- C3 witness: a concrete selection in which the raw difference is exactly
the raw-field difference. -/
theorem pass2_raw_diff_wit :
    pass2Select [(Loc.mk "2024-01-01" "a" 0, { Created := "2024-01-01T00:00:01", createdUs := 1000000 })] 1000
        = some (Loc.mk "2024-01-01" "a" 0, 999000, 999000) ∧
      ∃ m, (Loc.mk "2024-01-01" "a" 0, m) ∈
          [(Loc.mk "2024-01-01" "a" 0, { Created := "2024-01-01T00:00:01", createdUs := 1000000 : Message })] ∧
        999000 = (m.createdUs - 1000).natAbs ∧
        999000 = (m.createdUs - 1000).natAbs + m.mediaFilenames.length * 5000 :=
  ⟨by decide, pass2_raw_diff _ 1000 _ 999000 999000 (by decide)⟩

/-- C3 counterexample: the claim's formula (field treated as microseconds and
first expressed in milliseconds) disagrees with the engine's raw difference
at a message created at 1000000 in the raw field and a file mtime of 1000 ms:
the engine computes 999000 while the claim's formula gives 0. -/
theorem pass2_raw_diff_cx :
    pass2Select [(Loc.mk "2024-01-01" "a" 0, { Created := "2024-01-01T00:00:01", createdUs := 1000000 })] 1000
        = some (Loc.mk "2024-01-01" "a" 0, 999000, 999000) ∧
      specMsDiff { Created := "2024-01-01T00:00:01", createdUs := 1000000 } 1000 = 0 ∧
      (999000 : Nat) ≠ 0 := by
  refine ⟨by decide, by decide, by decide⟩

/-- C4: when the best candidate's raw difference is exactly 30000 ms the file
is appended to that candidate's matched list, and when it is 30001 ms the
days structure is left unchanged by this file's pass-2 step. -/
theorem threshold_boundary (d : Days) (day : String) (mt : Int) (fname : String)
    (ts : List String) (loc : Loc) (bd : Nat) (hts : dayTargets day = some ts) :
    (pass2Select (pass2Scan d ts) mt = some (loc, bd, 30000) →
      pass2Step d (day, mt, fname) = some (appendAt d loc fname)) ∧
    (pass2Select (pass2Scan d ts) mt = some (loc, bd, 30001) →
      pass2Step d (day, mt, fname) = some d) := by
  constructor
  · intro hsel
    unfold pass2Step
    simp only [hts, hsel]
    rw [if_pos (by omega)]
  · intro hsel
    unfold pass2Step
    simp only [hts, hsel]
    rw [if_neg (by omega)]

/-- C4 witness: a single message at raw distance 30000 is matched; at 30001
it is not. -/
theorem threshold_boundary_wit :
    pass2Step [("2024-01-05", [("alice", [{ Created := "2024-01-05T00:00:30", createdUs := 30000 }])])]
        ("2024-01-05", 0, "f.jpg")
      = some (appendAt [("2024-01-05", [("alice", [{ Created := "2024-01-05T00:00:30", createdUs := 30000 }])])]
          (Loc.mk "2024-01-05" "alice" 0) "f.jpg") ∧
    pass2Step [("2024-01-05", [("alice", [{ Created := "2024-01-05T00:00:30", createdUs := 30001 }])])]
        ("2024-01-05", 0, "g.jpg")
      = some [("2024-01-05", [("alice", [{ Created := "2024-01-05T00:00:30", createdUs := 30001 }])])] :=
  ⟨(threshold_boundary _ "2024-01-05" 0 "f.jpg" ["2024-01-05", "2024-01-04", "2024-01-06"]
      (Loc.mk "2024-01-05" "alice" 0) 30000 (by decide)).1 (by decide),
   (threshold_boundary _ "2024-01-05" 0 "g.jpg" ["2024-01-05", "2024-01-04", "2024-01-06"]
      (Loc.mk "2024-01-05" "alice" 0) 30001 (by decide)).2 (by decide)⟩

theorem sel_two (mt : Int) (a b : Loc × Message) :
    pass2Select [a, b] mt =
      if rankedOf mt b.2 < rankedOf mt a.2
      then some (b.1, rankedOf mt b.2, realOf mt b.2)
      else some (a.1, rankedOf mt a.2, realOf mt a.2) := by
  simp only [pass2Select, List.foldl, selStep]

/-- C5: with exactly two candidate messages equidistant in raw time from the
file, the one with zero prior matches wins over the one with one prior match
regardless of encounter order (the 5000 penalty separates them) and, being
within threshold, receives the file; and an exact ranked-score tie is broken
in favour of the first-encountered candidate. -/
theorem penalty_spreading
    (d : Days) (day : String) (mt : Int) (fname : String) (ts : List String)
    (l1 l2 : Loc) (m1 m2 : Message) (hts : dayTargets day = some ts) :
    ((pass2Scan d ts = [(l1, m1), (l2, m2)] ∨ pass2Scan d ts = [(l2, m2), (l1, m1)]) →
      realOf mt m1 = realOf mt m2 →
      m1.mediaFilenames.length = 1 → m2.mediaFilenames.length = 0 →
      realOf mt m2 ≤ 30000 →
      pass2Step d (day, mt, fname) = some (appendAt d l2 fname)) ∧
    (pass2Scan d ts = [(l1, m1), (l2, m2)] →
      rankedOf mt m1 = rankedOf mt m2 →
      pass2Select (pass2Scan d ts) mt = some (l1, rankedOf mt m1, realOf mt m1)) := by
  constructor
  · intro hscan heq h1 h2 hthr
    have hr1 : rankedOf mt m1 = realOf mt m2 + 5000 := by
      unfold rankedOf
      rw [heq, h1]
    have hr2 : rankedOf mt m2 = realOf mt m2 := by
      unfold rankedOf
      rw [h2]
      omega
    have hsel : pass2Select (pass2Scan d ts) mt = some (l2, realOf mt m2, realOf mt m2) := by
      rcases hscan with h | h <;> rw [h, sel_two]
      · rw [if_pos (by simp only [hr1, hr2]; omega)]
        rw [hr2]
      · rw [if_neg (by simp only [hr1, hr2]; omega)]
        rw [hr2]
    unfold pass2Step
    simp only [hts, hsel]
    rw [if_pos hthr]
  · intro hscan heq
    rw [hscan, sel_two]
    simp only
    rw [if_neg (by simp only [heq]; omega)]

/-- C5 witness: two equidistant messages in one conversation, the first with
one prior match; the file goes to the second (zero priors).  Separately, a
ranked tie between two fresh messages keeps the first encountered. -/
theorem penalty_spreading_wit :
    pass2Step
        [("2024-01-05", [("a",
          [{ Created := "2024-01-05T00:00:05", createdUs := 5000, mediaFilenames := ["x.jpg"] },
           { Created := "2024-01-05T00:00:15", createdUs := 15000 }])])]
        ("2024-01-05", 10000, "f.jpg")
      = some (appendAt
          [("2024-01-05", [("a",
            [{ Created := "2024-01-05T00:00:05", createdUs := 5000, mediaFilenames := ["x.jpg"] },
             { Created := "2024-01-05T00:00:15", createdUs := 15000 }])])]
          (Loc.mk "2024-01-05" "a" 1) "f.jpg") ∧
    pass2Select
        (pass2Scan
          [("2024-01-05", [("a",
            [{ Created := "2024-01-05T00:00:05", createdUs := 5000 },
             { Created := "2024-01-05T00:00:15", createdUs := 15000 }])])]
          ["2024-01-05", "2024-01-04", "2024-01-06"])
        10000
      = some (Loc.mk "2024-01-05" "a" 0, 5000, 5000) := by
  constructor
  · exact (penalty_spreading _ "2024-01-05" 10000 "f.jpg"
      ["2024-01-05", "2024-01-04", "2024-01-06"]
      (Loc.mk "2024-01-05" "a" 0) (Loc.mk "2024-01-05" "a" 1)
      { Created := "2024-01-05T00:00:05", createdUs := 5000, mediaFilenames := ["x.jpg"] }
      { Created := "2024-01-05T00:00:15", createdUs := 15000 }
      (by decide)).1 (Or.inl (by decide)) (by decide) (by decide) (by decide) (by decide)
  · have h := (penalty_spreading
      [("2024-01-05", [("a",
        [{ Created := "2024-01-05T00:00:05", createdUs := 5000 },
         { Created := "2024-01-05T00:00:15", createdUs := 15000 }])])]
      "2024-01-05" 10000 "f.jpg" ["2024-01-05", "2024-01-04", "2024-01-06"]
      (Loc.mk "2024-01-05" "a" 0) (Loc.mk "2024-01-05" "a" 1)
      { Created := "2024-01-05T00:00:05", createdUs := 5000 }
      { Created := "2024-01-05T00:00:15", createdUs := 15000 }
      (by decide)).2 (by decide) (by decide)
    rw [h]
    decide

/-! ### Lemmas about day bucketing -/

theorem convFlatten_cons (q : String × List Message) (rest : List (String × List Message)) :
    convFlatten (q :: rest) = q.2.map (fun m => (q.1, m)) ++ convFlatten rest := rfl

theorem daysFlatten_cons (p : String × List (String × List Message)) (rest : Days) :
    daysFlatten (p :: rest) = convFlatten p.2 ++ daysFlatten rest := rfl

theorem convFlatten_odUpd (conv : List (String × List Message)) (cid : String) (m : Message) :
    convFlatten (odUpd conv cid (fun l => l ++ [m]) []) ~ (cid, m) :: convFlatten conv := by
  induction conv with
  | nil => exact List.Perm.refl [(cid, m)]
  | cons p rest ih =>
    rcases p with ⟨k, v⟩
    unfold odUpd
    by_cases h : k = cid
    · rw [if_pos h]
      subst h
      rw [convFlatten_cons, convFlatten_cons]
      simp only [List.map_append, List.map_cons, List.map_nil, List.append_assoc,
        List.singleton_append]
      exact List.perm_middle
    · rw [if_neg h]
      rw [convFlatten_cons, convFlatten_cons]
      calc v.map (fun m' => (k, m')) ++ convFlatten (odUpd rest cid (fun l => l ++ [m]) [])
          ~ v.map (fun m' => (k, m')) ++ ((cid, m) :: convFlatten rest) := ih.append_left _
        _ ~ (cid, m) :: (v.map (fun m' => (k, m')) ++ convFlatten rest) := List.perm_middle

theorem daysFlatten_addMsg (d : Days) (cid : String) (m : Message) :
    daysFlatten (addMsg d cid m) ~ (cid, m) :: daysFlatten d := by
  unfold addMsg
  induction d with
  | nil =>
    rw [show odUpd [] (dayOfMsg m) (fun conv => odUpd conv cid (fun l => l ++ [m]) []) [] =
      [(dayOfMsg m, odUpd [] cid (fun l => l ++ [m]) [])] from rfl]
    rw [daysFlatten_cons]
    refine ((convFlatten_odUpd [] cid m).append_right _).trans ?_
    simp [daysFlatten, convFlatten]
  | cons p rest ih =>
    rcases p with ⟨k, v⟩
    unfold odUpd
    by_cases h : k = dayOfMsg m
    · rw [if_pos h]
      rw [daysFlatten_cons, daysFlatten_cons]
      exact (convFlatten_odUpd v cid m).append_right _
    · rw [if_neg h]
      rw [daysFlatten_cons, daysFlatten_cons]
      calc convFlatten v ++ daysFlatten (odUpd rest (dayOfMsg m) _ [])
          ~ convFlatten v ++ ((cid, m) :: daysFlatten rest) := ih.append_left _
        _ ~ (cid, m) :: (convFlatten v ++ daysFlatten rest) := List.perm_middle

theorem daysFlatten_foldMsgs (cid : String) (g : Message → Message) (msgs : List Message) :
    ∀ d0 : Days, daysFlatten (msgs.foldl (fun d m => addMsg d cid (g m)) d0)
      ~ daysFlatten d0 ++ msgs.map (fun m => (cid, g m)) := by
  induction msgs with
  | nil => intro d0; simp
  | cons x xs ih =>
    intro d0
    simp only [List.foldl_cons, List.map_cons]
    calc daysFlatten (xs.foldl (fun d m => addMsg d cid (g m)) (addMsg d0 cid (g x)))
        ~ daysFlatten (addMsg d0 cid (g x)) ++ xs.map (fun m => (cid, g m)) := ih _
      _ ~ ((cid, g x) :: daysFlatten d0) ++ xs.map (fun m => (cid, g m)) :=
          (daysFlatten_addMsg _ _ _).append_right _
      _ ~ daysFlatten d0 ++ (cid, g x) :: xs.map (fun m => (cid, g m)) := by
          rw [List.cons_append]
          exact List.perm_middle.symm

theorem daysFlatten_foldConvs (g : Message → Message) (l : List (String × List Message)) :
    ∀ d0 : Days,
      daysFlatten (l.foldl (fun d p => p.2.foldl (fun d' m => addMsg d' p.1 (g m)) d) d0)
        ~ daysFlatten d0 ++ (l.map (fun p => p.2.map (fun m => (p.1, g m)))).flatten := by
  induction l with
  | nil => intro d0; simp
  | cons p ps ih =>
    intro d0
    simp only [List.foldl_cons, List.map_cons, List.flatten_cons]
    calc daysFlatten (ps.foldl _ (p.2.foldl (fun d' m => addMsg d' p.1 (g m)) d0))
        ~ daysFlatten (p.2.foldl (fun d' m => addMsg d' p.1 (g m)) d0) ++ _ := ih _
      _ ~ (daysFlatten d0 ++ p.2.map (fun m => (p.1, g m))) ++ _ :=
          (daysFlatten_foldMsgs p.1 g p.2 d0).append_right _
      _ = daysFlatten d0 ++ (p.2.map (fun m => (p.1, g m)) ++ _) := by
          rw [List.append_assoc]

theorem foldl_pair_fst {γ δ : Type} (l : List δ) (F : (Days × γ) → δ → (Days × γ))
    (Fd : Days → δ → Days) (h : ∀ a x, (F a x).1 = Fd a.1 x) :
    ∀ a, (l.foldl F a).1 = l.foldl Fd a.1 := by
  induction l with
  | nil => intro a; rfl
  | cons x xs ih =>
    intro a
    simp only [List.foldl_cons]
    rw [ih (F a x), h a x]

theorem buildChat_days (chat : List (String × List Message)) :
    (buildChat chat).1 =
      chat.foldl (fun d p => p.2.foldl (fun d' m => addMsg d' p.1 (chatTag m)) d) [] := by
  unfold buildChat
  exact foldl_pair_fst chat _ _ (fun a x => rfl) ([], [])

theorem buildSnap_days (snap : List (String × List Message)) (st : Days × List (String × String)) :
    (buildSnap snap st).1 =
      snap.foldl (fun d p => p.2.foldl (fun d' m => addMsg d' p.1 (snapProject m)) d) st.1 := by
  unfold buildSnap
  refine foldl_pair_fst snap _ _ (fun a x => ?_) st
  exact foldl_pair_fst x.2 _ _ (fun a' x' => rfl) a

theorem odUpd_mem {α : Type} {l : List (String × α)} {k : String} {f : α → α} {dflt : α}
    {p : String × α} (hp : p ∈ odUpd l k f dflt) :
    p ∈ l ∨ ∃ v, p = (k, f v) ∧ ((k, v) ∈ l ∨ v = dflt) := by
  induction l with
  | nil =>
    unfold odUpd at hp
    exact Or.inr ⟨dflt, List.mem_singleton.mp hp, Or.inr rfl⟩
  | cons q rest ih =>
    rcases q with ⟨k', v'⟩
    unfold odUpd at hp
    by_cases h : k' = k
    · rw [if_pos h] at hp
      subst h
      rcases List.mem_cons.mp hp with h1 | h1
      · exact Or.inr ⟨v', h1, Or.inl (List.mem_cons_self _ _)⟩
      · exact Or.inl (List.mem_cons_of_mem _ h1)
    · rw [if_neg h] at hp
      rcases List.mem_cons.mp hp with h1 | h1
      · exact Or.inl (h1 ▸ List.mem_cons_self _ _)
      · rcases ih h1 with h2 | ⟨v, hv, h3⟩
        · exact Or.inl (List.mem_cons_of_mem _ h2)
        · exact Or.inr ⟨v, hv, h3.imp (List.mem_cons_of_mem _) id⟩

theorem addMsg_inv {d : Days} {cid : String} {m : Message}
    (h : ∀ p ∈ d, ∀ q ∈ p.2, ∀ m' ∈ q.2, dayOfMsg m' = p.1) :
    ∀ p ∈ addMsg d cid m, ∀ q ∈ p.2, ∀ m' ∈ q.2, dayOfMsg m' = p.1 := by
  intro p hp q hq m' hm'
  rcases odUpd_mem hp with h1 | ⟨conv, hpeq, h2⟩
  · exact h p h1 q hq m' hm'
  · subst hpeq
    rcases odUpd_mem hq with h3 | ⟨w, hqeq, h4⟩
    · rcases h2 with h5 | h5
      · exact h _ h5 q h3 m' hm'
      · subst h5; cases h3
    · subst hqeq
      rcases List.mem_append.mp hm' with h6 | h6
      · rcases h4 with h7 | h7
        · rcases h2 with h5 | h5
          · exact h _ h5 _ h7 m' h6
          · subst h5; cases h7
        · subst h7; cases h6
      · rw [List.mem_singleton.mp h6]

theorem foldMsgs_inv {cid : String} {g : Message → Message} {msgs : List Message} :
    ∀ d0 : Days, (∀ p ∈ d0, ∀ q ∈ p.2, ∀ m' ∈ q.2, dayOfMsg m' = p.1) →
      ∀ p ∈ msgs.foldl (fun d m => addMsg d cid (g m)) d0,
        ∀ q ∈ p.2, ∀ m' ∈ q.2, dayOfMsg m' = p.1 := by
  induction msgs with
  | nil => intro d0 h; exact h
  | cons x xs ih => intro d0 h; exact ih _ (addMsg_inv h)

theorem foldConvs_inv {g : Message → Message} {l : List (String × List Message)} :
    ∀ d0 : Days, (∀ p ∈ d0, ∀ q ∈ p.2, ∀ m' ∈ q.2, dayOfMsg m' = p.1) →
      ∀ p ∈ l.foldl (fun d p' => p'.2.foldl (fun d' m => addMsg d' p'.1 (g m)) d) d0,
        ∀ q ∈ p.2, ∀ m' ∈ q.2, dayOfMsg m' = p.1 := by
  induction l with
  | nil => intro d0 h; exact h
  | cons x xs ih => intro d0 h; exact ih _ (foldMsgs_inv _ h)

/-- C7: with every input message carrying a non-empty date prefix, the built
days structure is an exact partition of the two inputs: its flattened
`(conversation id, message)` content is a permutation of the chat messages
(tagged `message`) together with the projected snap messages — nothing
duplicated, nothing lost — and every message sits in the bucket keyed by the
first 10 characters of its `Created` field, under its conversation id. -/
theorem build_days_partition (chat snap : List (String × List Message))
    (hne : (∀ p ∈ chat, ∀ m ∈ p.2, strTake m.Created 10 ≠ "") ∧
           (∀ p ∈ snap, ∀ m ∈ p.2, strTake m.Created 10 ≠ "")) :
    daysFlatten (build_days chat snap).1 ~ chatFlat chat ++ snapFlat snap ∧
    (∀ p ∈ (build_days chat snap).1, ∀ q ∈ p.2, ∀ m ∈ q.2, dayOfMsg m = p.1) := by
  have hd : (build_days chat snap).1 =
      snap.foldl (fun d p => p.2.foldl (fun d' m => addMsg d' p.1 (snapProject m)) d)
        (chat.foldl (fun d p => p.2.foldl (fun d' m => addMsg d' p.1 (chatTag m)) d) []) := by
    unfold build_days
    rw [buildSnap_days, buildChat_days]
  constructor
  · rw [hd]
    refine (daysFlatten_foldConvs snapProject snap _).trans ?_
    exact (daysFlatten_foldConvs chatTag chat []).append_right _
  · rw [hd]
    refine foldConvs_inv _ (foldConvs_inv _ ?_)
    intro p hp
    cases hp

/-- C7 witness: a two-conversation instance (one chat, one snap) whose
flattened buckets are a permutation of the tagged inputs. -/
theorem build_days_partition_wit :
    ((∀ p ∈ [("alice", [{ Created := "2024-01-01T10:00:00", createdUs := 5 : Message }])],
        ∀ m ∈ p.2, strTake m.Created 10 ≠ "") ∧
      (∀ p ∈ [("bob", [{ Created := "2024-01-02T10:00:00", createdUs := 7 : Message }])],
        ∀ m ∈ p.2, strTake m.Created 10 ≠ "")) ∧
    daysFlatten (build_days
        [("alice", [{ Created := "2024-01-01T10:00:00", createdUs := 5 }])]
        [("bob", [{ Created := "2024-01-02T10:00:00", createdUs := 7 }])]).1
      ~ chatFlat [("alice", [{ Created := "2024-01-01T10:00:00", createdUs := 5 }])]
        ++ snapFlat [("bob", [{ Created := "2024-01-02T10:00:00", createdUs := 7 }])] :=
  ⟨⟨by decide, by decide⟩,
   (build_days_partition
      [("alice", [{ Created := "2024-01-01T10:00:00", createdUs := 5 }])]
      [("bob", [{ Created := "2024-01-02T10:00:00", createdUs := 7 }])]
      ⟨by decide, by decide⟩).1⟩

/-! ### Lemmas about sorting and matched-name counting -/

theorem insertLe_perm {α : Type} (le : α → α → Bool) (a : α) (l : List α) :
    insertLe le a l ~ a :: l := by
  induction l with
  | nil => exact List.Perm.refl _
  | cons b bs ih =>
    unfold insertLe
    by_cases h : le b a
    · rw [if_pos h]
      exact (ih.cons b).trans (List.Perm.swap a b bs)
    · rw [if_neg h]

theorem insSortBy_perm {α : Type} (le : α → α → Bool) (l : List α) : insSortBy le l ~ l := by
  suffices h : ∀ acc : List α, l.foldl (fun acc' a => insertLe le a acc') acc ~ acc ++ l by
    simpa using h []
  induction l with
  | nil => intro acc; simp
  | cons x xs ih =>
    intro acc
    simp only [List.foldl_cons]
    calc xs.foldl (fun acc' a => insertLe le a acc') (insertLe le x acc)
        ~ insertLe le x acc ++ xs := ih _
      _ ~ (x :: acc) ++ xs := (insertLe_perm le x acc).append_right xs
      _ ~ acc ++ x :: xs := List.perm_middle.symm

theorem countIn_modifyIdx (msgs : List Message) (i : Nat) (fname n : String) (hne : n ≠ fname) :
    countIn (modifyIdx msgs i (appendName fname)) n = countIn msgs n := by
  induction msgs generalizing i with
  | nil => rfl
  | cons x xs ih =>
    cases i with
    | zero =>
      unfold modifyIdx countIn
      simp only [List.countP_cons]
      have hpred : decide (n ∈ (appendName fname x).mediaFilenames)
          = decide (n ∈ x.mediaFilenames) := by
        simp [appendName, List.mem_append, hne]
      rw [hpred]
    | succ j =>
      unfold modifyIdx countIn
      simp only [List.countP_cons]
      have hj := ih j
      unfold countIn at hj
      rw [hj]

theorem countConv_appendConv (conv : List (String × List Message)) (cid : String) (idx : Nat)
    (fname n : String) (hne : n ≠ fname) :
    countConv (odUpd conv cid (fun msgs => modifyIdx msgs idx (appendName fname)) []) n
      = countConv conv n := by
  induction conv with
  | nil =>
    unfold odUpd countConv
    simp [modifyIdx, countIn]
  | cons q rest ih =>
    rcases q with ⟨k, v⟩
    unfold odUpd
    by_cases h : k = cid
    · rw [if_pos h]
      unfold countConv
      simp only [List.map_cons, List.sum_cons]
      rw [countIn_modifyIdx _ _ _ _ hne]
    · rw [if_neg h]
      unfold countConv
      simp only [List.map_cons, List.sum_cons]
      unfold countConv at ih
      rw [ih]

theorem msgsContaining_appendAt (d : Days) (loc : Loc) (fname n : String) (hne : n ≠ fname) :
    msgsContaining (appendAt d loc fname) n = msgsContaining d n := by
  unfold appendAt
  induction d with
  | nil =>
    unfold odUpd msgsContaining
    simp only [List.map_cons, List.map_nil, List.sum_cons, List.sum_nil]
    rw [countConv_appendConv [] loc.conv loc.idx fname n hne]
    rfl
  | cons p rest ih =>
    rcases p with ⟨k, v⟩
    unfold odUpd
    by_cases h : k = loc.day
    · rw [if_pos h]
      unfold msgsContaining
      simp only [List.map_cons, List.sum_cons]
      rw [countConv_appendConv v loc.conv loc.idx fname n hne]
    · rw [if_neg h]
      unfold msgsContaining
      simp only [List.map_cons, List.sum_cons]
      unfold msgsContaining at ih
      rw [ih]

theorem pass2Step_cases (d : Days) (e : String × Int × String) (d1 : Days)
    (h : pass2Step d e = some d1) :
    d1 = d ∨ ∃ loc, d1 = appendAt d loc e.2.2 := by
  unfold pass2Step at h
  split at h
  · cases h
  · split at h
    · rename_i loc bd br heq
      by_cases hbr : br ≤ 30000
      · rw [if_pos hbr] at h
        exact Or.inr ⟨loc, (Option.some.inj h).symm⟩
      · rw [if_neg hbr] at h
        exact Or.inl (Option.some.inj h).symm
    · exact Or.inl (Option.some.inj h).symm

theorem pass2_preserves (n : String) :
    ∀ tsf : List (String × Int × String), (∀ e ∈ tsf, e.2.2 ≠ n) →
      ∀ d d', pass2 d tsf = some d' → msgsContaining d' n = msgsContaining d n := by
  intro tsf
  induction tsf with
  | nil =>
    intro _ d d' h
    rw [show d' = d from (Option.some.inj h).symm]
  | cons e es ih =>
    intro hn d d' h
    unfold pass2 at h
    rw [List.foldlM_cons] at h
    cases hstep : pass2Step d e with
    | none => rw [hstep] at h; cases h
    | some d1 =>
      rw [hstep] at h
      have h2 : pass2 d1 es = some d' := h
      have hrest := ih (fun e' he' => hn e' (List.mem_cons_of_mem _ he')) d1 d' h2
      rw [hrest]
      rcases pass2Step_cases d e d1 hstep with h3 | ⟨loc, h3⟩
      · rw [h3]
      · rw [h3, msgsContaining_appendAt d loc e.2.2 n (Ne.symm (hn e (List.mem_cons_self _ _)))]

/-- C2 counterexample: two messages whose raw Media IDs both reference the
same indexed file; after pass 1 the file's name sits in both messages'
matched lists, so "at most one Message's matched list during the
identifier-matching pass" fails. -/
theorem id_match_precedence_cx :
    msgsContaining
        (pass1Days [("x", ⟨"2024-01-01_b~x.jpg", 0⟩)]
          [("2024-01-01", [("alice",
            [{ Created := "2024-01-01T00:00:00", createdUs := 0, mediaIDs := "x" },
             { Created := "2024-01-01T00:00:01", createdUs := 1, mediaIDs := "x" }])])])
        "2024-01-01_b~x.jpg" = 2 ∧
    ¬ msgsContaining
        (pass1Days [("x", ⟨"2024-01-01_b~x.jpg", 0⟩)]
          [("2024-01-01", [("alice",
            [{ Created := "2024-01-01T00:00:00", createdUs := 0, mediaIDs := "x" },
             { Created := "2024-01-01T00:00:01", createdUs := 1, mediaIDs := "x" }])])])
        "2024-01-01_b~x.jpg" ≤ 1 := by
  exact ⟨by decide, by decide⟩

/-- C2 (amended): a file referenced by a message's raw Media IDs field lands
in that message's matched list in pass 1 — once per referencing message, so
several messages referencing the same id each receive it — its id joins
matched_b, which excludes the file from the pass-2 candidate list (given
distinct pool names), and pass 2 never appends a non-candidate name, so the
timestamp pass cannot assign the file to any message. -/
theorem id_match_precedence
    (bl : List (String × MediaFile)) (d : Days) (others : List MediaFile)
    (mid : String) (f : MediaFile) (hlk : alookup bl mid = some f)
    (day : String) (convs : List (String × List Message)) (cid : String)
    (msgs : List Message) (m : Message)
    (hd : (day, convs) ∈ d) (hc : (cid, msgs) ∈ convs) (hm : m ∈ msgs)
    (href : mid ∈ parseIds m.mediaIDs)
    (huniq : ∀ p ∈ bl, p.2.name = f.name → p.1 = mid)
    (hothers : ∀ g ∈ others, g.name ≠ f.name) :
    (∃ convs', (day, convs') ∈ pass1Days bl d ∧
      ∃ msgs', (cid, msgs') ∈ convs' ∧ pass1Msg bl m ∈ msgs' ∧
        f.name ∈ (pass1Msg bl m).mediaFilenames) ∧
    mid ∈ pass1MatchedB bl d ∧
    (∀ e ∈ tsFiles bl (pass1MatchedB bl d) others, e.2.2 ≠ f.name) ∧
    (∀ tsf : List (String × Int × String), (∀ e ∈ tsf, e.2.2 ≠ f.name) →
      ∀ d0 d1, pass2 d0 tsf = some d1 →
        msgsContaining d1 f.name = msgsContaining d0 f.name) := by
  have hmb : mid ∈ pass1MatchedB bl d := by
    unfold pass1MatchedB
    apply List.mem_flatten.mpr
    refine ⟨_, List.mem_map_of_mem _ hd, ?_⟩
    apply List.mem_flatten.mpr
    refine ⟨_, List.mem_map_of_mem _ hc, ?_⟩
    apply List.mem_flatten.mpr
    refine ⟨_, List.mem_map_of_mem (msgMatchedIds bl) hm, ?_⟩
    unfold msgMatchedIds
    apply List.mem_filter.mpr
    exact ⟨href, by rw [hlk]; rfl⟩
  refine ⟨?_, hmb, ?_, fun tsf h d0 d1 => pass2_preserves f.name tsf h d0 d1⟩
  · refine ⟨convs.map (fun q => (q.1, (sortMsgs q.2).map (pass1Msg bl))),
      List.mem_map_of_mem _ hd, (sortMsgs msgs).map (pass1Msg bl),
      List.mem_map_of_mem _ hc, ?_, ?_⟩
    · exact List.mem_map_of_mem _
        (((insSortBy_perm _ msgs).mem_iff).mpr hm)
    · unfold pass1Msg
      simp only
      apply List.mem_append.mpr
      right
      apply List.mem_filterMap.mpr
      exact ⟨mid, href, by rw [hlk]; rfl⟩
  · intro e he hname
    unfold tsFiles at he
    rcases List.mem_append.mp he with h1 | h1
    · obtain ⟨p, hp, hpe⟩ := List.mem_map.mp h1
      have hpname : p.2.name = f.name := by rw [← hpe] at hname; exact hname
      obtain ⟨hpmem, hpred⟩ := List.mem_filter.mp hp
      have hpid := huniq p hpmem hpname
      rw [hpid] at hpred
      have : mid ∉ pass1MatchedB bl d := by
        intro hmem
        rw [show (pass1MatchedB bl d).contains mid = true from List.elem_iff.mpr hmem] at hpred
        cases hpred
      exact this hmb
    · obtain ⟨g, hg, hge⟩ := List.mem_map.mp h1
      have : g.name = f.name := by rw [← hge] at hname; exact hname
      exact hothers g hg this

/-- C2 witness: one referenced file is matched by id and the pass-2
candidate list for the run is empty of its name. -/
theorem id_match_precedence_wit :
    "x" ∈ pass1MatchedB [("x", ⟨"2024-01-01_b~x.jpg", 0⟩)]
        [("2024-01-01", [("alice",
          [{ Created := "2024-01-01T00:00:00", createdUs := 0, mediaIDs := "x" }])])] ∧
    (∀ e ∈ tsFiles [("x", ⟨"2024-01-01_b~x.jpg", 0⟩)]
        (pass1MatchedB [("x", ⟨"2024-01-01_b~x.jpg", 0⟩)]
          [("2024-01-01", [("alice",
            [{ Created := "2024-01-01T00:00:00", createdUs := 0, mediaIDs := "x" }])])]) [],
      e.2.2 ≠ "2024-01-01_b~x.jpg") := by
  have h := id_match_precedence
    [("x", ⟨"2024-01-01_b~x.jpg", 0⟩)]
    [("2024-01-01", [("alice",
      [{ Created := "2024-01-01T00:00:00", createdUs := 0, mediaIDs := "x" }])])]
    [] "x" ⟨"2024-01-01_b~x.jpg", 0⟩ (by decide)
    "2024-01-01" [("alice",
      [{ Created := "2024-01-01T00:00:00", createdUs := 0, mediaIDs := "x" }])]
    "alice" [{ Created := "2024-01-01T00:00:00", createdUs := 0, mediaIDs := "x" }]
    { Created := "2024-01-01T00:00:00", createdUs := 0, mediaIDs := "x" }
    (by decide) (by decide) (by decide) (by decide) (by decide) (by decide)
  exact ⟨h.2.1, h.2.2.1⟩

/-! ### Lemmas about output assembly and its idempotence -/

theorem enrichMsg_mediaFilenames (pn : List String) (pairs : List (String × MediaFile))
    (m : Message) : (enrichMsg pn pairs m).mediaFilenames = m.mediaFilenames := by
  obtain ⟨f1, f2, f3, f4, f5, f6, f7, f8, f9, f10, f11, f12, f13, f14, f15⟩ := m
  by_cases h : f11.filterMap (rowOf pn pairs) = []
  · simp [enrichMsg, h]
  · simp [enrichMsg, h]

theorem enrichMsg_mediaIDs (pn : List String) (pairs : List (String × MediaFile))
    (m : Message) : (enrichMsg pn pairs m).mediaIDs = m.mediaIDs := by
  obtain ⟨f1, f2, f3, f4, f5, f6, f7, f8, f9, f10, f11, f12, f13, f14, f15⟩ := m
  by_cases h : f11.filterMap (rowOf pn pairs) = []
  · simp [enrichMsg, h]
  · simp [enrichMsg, h]

theorem enrichMsg_idem (pn : List String) (pairs : List (String × MediaFile)) (m : Message) :
    enrichMsg pn pairs (enrichMsg pn pairs m) = enrichMsg pn pairs m := by
  obtain ⟨f1, f2, f3, f4, f5, f6, f7, f8, f9, f10, f11, f12, f13, f14, f15⟩ := m
  by_cases h : f11.filterMap (rowOf pn pairs) = []
  · simp [enrichMsg, h]
  · simp [enrichMsg, h]

theorem enrichConvs_idem (pn : List String) (pairs : List (String × MediaFile))
    (convs : List (String × List Message)) :
    enrichConvs pn pairs (enrichConvs pn pairs convs) = enrichConvs pn pairs convs := by
  unfold enrichConvs
  rw [List.map_map]
  apply List.map_congr_left
  intro q _
  simp only [Function.comp_apply]
  rw [List.map_map]
  congr 1
  apply List.map_congr_left
  intro m _
  exact enrichMsg_idem pn pairs m

theorem enrichDays_idem (pn : List String) (pairs : List (String × MediaFile)) (d : Days) :
    enrichDays pn pairs (enrichDays pn pairs d) = enrichDays pn pairs d := by
  unfold enrichDays
  rw [List.map_map]
  apply List.map_congr_left
  intro p _
  simp only [Function.comp_apply]
  rw [enrichConvs_idem]

theorem presentNames_enrich (pn : List String) (pairs : List (String × MediaFile)) (m : Message) :
    presentNames pn (enrichMsg pn pairs m) = presentNames pn m := by
  unfold presentNames
  rw [enrichMsg_mediaFilenames]

theorem dayMappedOf_enrich (pn : List String) (pairs : List (String × MediaFile))
    (convs : List (String × List Message)) :
    dayMappedOf pn (enrichConvs pn pairs convs) = dayMappedOf pn convs := by
  unfold dayMappedOf enrichConvs
  rw [List.map_map]
  congr 1
  apply List.map_congr_left
  intro q _
  simp only [Function.comp_apply]
  rw [List.map_map]
  congr 1
  apply List.map_congr_left
  intro m _
  exact presentNames_enrich pn pairs m

theorem dayCopies_enrich (pn : List String) (pairs : List (String × MediaFile)) (day : String)
    (convs : List (String × List Message)) :
    dayCopies pn pairs day (enrichConvs pn pairs convs) = dayCopies pn pairs day convs := by
  unfold dayCopies enrichConvs
  rw [List.map_map]
  congr 1
  apply List.map_congr_left
  intro q _
  simp only [Function.comp_apply]
  rw [List.map_map]
  congr 1
  apply List.map_congr_left
  intro m _
  simp only [Function.comp_apply]
  rw [enrichMsg_mediaFilenames]

theorem dayMsgCount_enrich (pn : List String) (pairs : List (String × MediaFile))
    (convs : List (String × List Message)) :
    dayMsgCount (enrichConvs pn pairs convs) = dayMsgCount convs := by
  unfold dayMsgCount enrichConvs
  rw [List.map_map]
  congr 1
  apply List.map_congr_left
  intro q _
  simp only [Function.comp_apply, List.length_map]

theorem convEntryOf_enrich (pn : List String) (pairs : List (String × MediaFile))
    (gts : List (String × String)) (cid : String) (msgs : List Message) :
    convEntryOf pn pairs gts cid (msgs.map (enrichMsg pn pairs))
      = convEntryOf pn pairs gts cid msgs := by
  unfold convEntryOf
  simp only
  congr 1
  rw [List.map_map]
  apply List.map_congr_left
  intro m _
  exact enrichMsg_idem pn pairs m

theorem dayDataOf_enrich (pn : List String) (pairs : List (String × MediaFile))
    (gts : List (String × String)) (mbd : List (String × List (String × MediaFile)))
    (day : String) (convs : List (String × List Message)) :
    dayDataOf pn pairs gts mbd day (enrichConvs pn pairs convs)
      = dayDataOf pn pairs gts mbd day convs := by
  unfold dayDataOf
  rw [dayMappedOf_enrich, dayMsgCount_enrich]
  have hconvlen : (enrichConvs pn pairs convs).length = convs.length := by
    unfold enrichConvs
    exact List.length_map _ _
  rw [hconvlen]
  have hconvs : (enrichConvs pn pairs convs).map
      (fun q => convEntryOf pn pairs gts q.1 q.2) = convs.map (fun q => convEntryOf pn pairs gts q.1 q.2) := by
    unfold enrichConvs
    rw [List.map_map]
    apply List.map_congr_left
    intro q _
    simp only [Function.comp_apply]
    exact convEntryOf_enrich pn pairs gts q.1 q.2
  rw [hconvs]

theorem dayGen_enrich (pn : List String) (pairs : List (String × MediaFile))
    (gts : List (String × String)) (mbd : List (String × List (String × MediaFile)))
    (day : String) (convs : List (String × List Message)) :
    dayGen pn pairs gts mbd day (enrichConvs pn pairs convs)
      = dayGen pn pairs gts mbd day convs := by
  unfold dayGen
  rw [dayCopies_enrich, dayMappedOf_enrich, dayDataOf_enrich]

theorem insertLe_key_map {A : Type} (F : String × A → String × A) (hF : ∀ p, (F p).1 = p.1)
    (a : String × A) (l : List (String × A)) :
    insertLe (fun x y => strLe x.1 y.1) (F a) (l.map F)
      = (insertLe (fun x y => strLe x.1 y.1) a l).map F := by
  induction l with
  | nil => rfl
  | cons b bs ih =>
    unfold insertLe
    simp only [List.map_cons, hF]
    cases hb : strLe b.1 a.1 <;> simp [hb, ih]

theorem insSortBy_key_map {A : Type} (F : String × A → String × A) (hF : ∀ p, (F p).1 = p.1)
    (l : List (String × A)) :
    ∀ acc, (l.map F).foldl (fun acc' a => insertLe (fun x y => strLe x.1 y.1) a acc') (acc.map F)
      = (l.foldl (fun acc' a => insertLe (fun x y => strLe x.1 y.1) a acc') acc).map F := by
  induction l with
  | nil => intro acc; rfl
  | cons x xs ih =>
    intro acc
    simp only [List.map_cons, List.foldl_cons]
    rw [insertLe_key_map F hF x acc]
    exact ih _

theorem sortedDays_enrich (pn : List String) (pairs : List (String × MediaFile)) (d : Days) :
    sortedDays (enrichDays pn pairs d)
      = (sortedDays d).map (fun p => (p.1, enrichConvs pn pairs p.2)) := by
  unfold sortedDays enrichDays insSortBy
  exact insSortBy_key_map (fun p => (p.1, enrichConvs pn pairs p.2)) (fun p => rfl) d []

theorem copiesOf_under (pn : List String) (pairs : List (String × MediaFile))
    (day fname : String) : ∀ e ∈ copiesOf pn pairs day fname, underDaysDir e.1 = true := by
  intro e he
  unfold copiesOf at he
  by_cases h : pn.contains fname
  · rw [if_pos h] at he
    cases halk : alookup pairs fname with
    | some ov =>
      rw [halk] at he
      rcases List.mem_cons.mp he with h1 | h1
      · rw [h1]; rfl
      · rw [List.mem_singleton.mp h1]; rfl
    | none =>
      rw [halk] at he
      rw [List.mem_singleton.mp he]; rfl
  · rw [if_neg h] at he
    cases he

theorem dayGen_under (pn : List String) (pairs : List (String × MediaFile))
    (gts : List (String × String)) (mbd : List (String × List (String × MediaFile)))
    (day : String) (convs : List (String × List Message)) :
    ∀ e ∈ dayGen pn pairs gts mbd day convs, underDaysDir e.1 = true := by
  intro e he
  unfold dayGen at he
  rcases List.mem_append.mp he with h1 | h1
  · rcases List.mem_append.mp h1 with h2 | h2
    · unfold dayCopies at h2
      obtain ⟨l1, hl1, hel1⟩ := List.mem_flatten.mp h2
      obtain ⟨q, _, hq⟩ := List.mem_map.mp hl1
      rw [← hq] at hel1
      obtain ⟨l2, hl2, hel2⟩ := List.mem_flatten.mp hel1
      obtain ⟨m, _, hm⟩ := List.mem_map.mp hl2
      rw [← hm] at hel2
      obtain ⟨l3, hl3, hel3⟩ := List.mem_flatten.mp hel2
      obtain ⟨fn, _, hfn⟩ := List.mem_map.mp hl3
      rw [← hfn] at hel3
      exact copiesOf_under pn pairs day fn e hel3
    · obtain ⟨g, _, hg⟩ := List.mem_map.mp h2
      rw [← hg]; rfl
  · rw [List.mem_singleton.mp h1]; rfl

theorem write_output_gen_under (d : Days) (pairs : List (String × MediaFile))
    (pn : List String) (gts : List (String × String)) (am : List MediaFile) :
    ∀ e ∈ (write_output d pairs pn gts am).gen, underDaysDir e.1 = true := by
  intro e he
  unfold write_output at he
  simp only at he
  obtain ⟨l, hl, hel⟩ := List.mem_flatten.mp he
  obtain ⟨p, _, hp⟩ := List.mem_map.mp hl
  rw [← hp] at hel
  exact dayGen_under pn pairs gts _ p.1 p.2 e hel

theorem write_output_enrich (d : Days) (pairs : List (String × MediaFile))
    (pn : List String) (gts : List (String × String)) (am : List MediaFile) :
    write_output (enrichDays pn pairs d) pairs pn gts am = write_output d pairs pn gts am := by
  unfold write_output
  simp only [sortedDays_enrich, enrichDays_idem, List.map_map, List.length_map]
  congr 1
  · congr 1
    apply List.map_congr_left
    intro p _
    simp only [Function.comp_apply]
    exact dayGen_enrich pn pairs gts _ p.1 p.2
  · congr 1
    apply List.map_congr_left
    intro p _
    simp only [Function.comp_apply]
    exact dayMappedOf_enrich pn pairs p.2

/-- C9: re-running output assembly on its own result is the identity: the
mutated days structure, the regenerated `days/` tree (media copies, orphan
copies, and the per-day `conversations.json` contents), the mapped-name set
and the day-file count all coincide with the first run's, because the stale
`days/` tree is wiped before regeneration and all classification is
recomputed from the same inputs. -/
theorem write_output_idempotent (d : Days) (pairs : List (String × MediaFile))
    (pn : List String) (gts : List (String × String)) (am : List MediaFile) (fs : FS) :
    writeOutputFS (writeOutputFS d pairs pn gts am fs).1.days pairs pn gts am
        (writeOutputFS d pairs pn gts am fs).2
      = writeOutputFS d pairs pn gts am fs := by
  unfold writeOutputFS
  simp only
  have hdays : (write_output d pairs pn gts am).days = enrichDays pn pairs d := rfl
  rw [hdays, write_output_enrich]
  congr 1
  rw [List.filter_append]
  have h1 : (fs.filter (fun e => ! underDaysDir e.1)).filter (fun e => ! underDaysDir e.1)
      = fs.filter (fun e => ! underDaysDir e.1) := by
    apply List.filter_eq_self.mpr
    intro a ha
    exact (List.mem_filter.mp ha).2
  have h2 : (write_output d pairs pn gts am).gen.filter (fun e => ! underDaysDir e.1) = [] := by
    apply List.filter_eq_nil_iff.mpr
    intro a ha
    rw [write_output_gen_under d pairs pn gts am a ha]
    decide
  rw [h1, h2, List.append_nil]

/-! ### Lemmas about classification -/

theorem odUpd_keys {α : Type} (l : List (String × α)) (k : String) (f : α → α) (dflt : α) :
    (odUpd l k f dflt).map (fun p => p.1) =
      if k ∈ l.map (fun p => p.1) then l.map (fun p => p.1)
      else l.map (fun p => p.1) ++ [k] := by
  induction l with
  | nil => simp [odUpd]
  | cons q rest ih =>
    rcases q with ⟨k', v⟩
    unfold odUpd
    by_cases h : k' = k
    · subst h
      simp [List.mem_cons]
    · rw [if_neg h]
      simp only [List.map_cons, ih]
      by_cases h2 : k ∈ rest.map (fun p => p.1)
      · rw [if_pos h2, if_pos (by simp [List.mem_cons, h2])]
      · rw [if_neg h2, if_neg (by
          simp only [List.map_cons, List.mem_cons]
          push_neg
          exact ⟨fun he => h he.symm, h2⟩)]
        rfl

theorem odUpd_keys_nodup {α : Type} {l : List (String × α)} {k : String} {f : α → α}
    {dflt : α} (h : (l.map (fun p => p.1)).Nodup) :
    ((odUpd l k f dflt).map (fun p => p.1)).Nodup := by
  rw [odUpd_keys]
  by_cases h2 : k ∈ l.map (fun p => p.1)
  · rw [if_pos h2]; exact h
  · rw [if_neg h2]
    simp [List.nodup_append, h, h2]

theorem nodupKeys_val_eq {α : Type} {l : List (String × α)} {k : String} {a b : α}
    (h : (l.map (fun p => p.1)).Nodup) (ha : (k, a) ∈ l) (hb : (k, b) ∈ l) : a = b := by
  induction l with
  | nil => cases ha
  | cons q rest ih =>
    simp only [List.map_cons, List.nodup_cons] at h
    rcases List.mem_cons.mp ha with h1 | h1 <;> rcases List.mem_cons.mp hb with h2 | h2
    · exact congrArg Prod.snd (h1.trans h2.symm)
    · exfalso
      exact h.1 (List.mem_map.mpr ⟨(k, b), h2, by rw [← h1]⟩)
    · exfalso
      exact h.1 (List.mem_map.mpr ⟨(k, a), h1, by rw [← h2]⟩)
    · exact ih h.2 h1 h2

theorem pyInsert_mem {α : Type} {l : List (String × α)} {k : String} {v : α}
    {p : String × α} (hp : p ∈ pyInsert l k v) : p ∈ l ∨ p = (k, v) := by
  unfold pyInsert at hp
  by_cases h : l.any (fun q => q.1 == k)
  · rw [if_pos h] at hp
    obtain ⟨q, hq, hqe⟩ := List.mem_map.mp hp
    by_cases h2 : q.1 = k
    · rw [if_pos h2] at hqe
      exact Or.inr hqe.symm
    · rw [if_neg h2] at hqe
      exact Or.inl (hqe ▸ hq)
  · rw [if_neg h] at hp
    rcases List.mem_append.mp hp with h1 | h1
    · exact Or.inl h1
    · exact Or.inr (List.mem_singleton.mp h1)

theorem sortByName_mem {l : List MediaFile} {f : MediaFile} (h : f ∈ sortByName l) : f ∈ l :=
  (insSortBy_perm _ l).mem_iff.mp h

theorem classFold_inv (files : List MediaFile) :
    ∀ l : List MediaFile, ∀ acc : ClassAcc, (∀ f ∈ l, f ∈ files) →
      (((acc.groups.map (fun p => p.1)).Nodup ∧
        ∀ day g, (day, g) ∈ acc.groups →
          (∀ f ∈ g.media, f ∈ files ∧ strTake f.name 10 = day ∧ strHas f.name "~zip-" = false) ∧
          (∀ f ∈ g.mediaZip, f ∈ files ∧ strTake f.name 10 = day ∧ strHas f.name "~zip-" = true))) →
      (((l.foldl classStep acc).groups.map (fun p => p.1)).Nodup ∧
        ∀ day g, (day, g) ∈ (l.foldl classStep acc).groups →
          (∀ f ∈ g.media, f ∈ files ∧ strTake f.name 10 = day ∧ strHas f.name "~zip-" = false) ∧
          (∀ f ∈ g.mediaZip, f ∈ files ∧ strTake f.name 10 = day ∧ strHas f.name "~zip-" = true)) := by
  intro l
  induction l with
  | nil => intro acc _ h; exact h
  | cons x xs ih =>
    intro acc hl h
    have hx : x ∈ files := hl x (List.mem_cons_self _ _)
    rw [List.foldl_cons]
    apply ih _ (fun f hf => hl f (List.mem_cons_of_mem _ hf))
    simp only [classStep]
    by_cases h1 : strHas (lowerStr x.name) "thumbnail"
    · rw [if_pos h1]; exact h
    · rw [if_neg h1]
      by_cases h2 : strHas x.name "_overlay~"
      · rw [if_pos h2]
        refine ⟨odUpd_keys_nodup h.1, ?_⟩
        intro day g hg
        rcases odUpd_mem hg with hold | ⟨v, hgeq, hv⟩
        · exact h.2 day g hold
        · have hday : day = strTake x.name 10 := congrArg Prod.fst hgeq
          have hgv : g = (if strHas x.name "~zip-" = true
              then { v with overlayZip := v.overlayZip ++ [x] }
              else { v with overlay := v.overlay ++ [x] }) := congrArg Prod.snd hgeq
          have hmedia : g.media = v.media := by rw [hgv]; split <;> rfl
          have hmediaZip : g.mediaZip = v.mediaZip := by rw [hgv]; split <;> rfl
          rcases hv with hv1 | hv1
          · have hvinv := h.2 day v (by rw [hday]; exact hv1)
            rw [hmedia, hmediaZip]
            exact hvinv
          · rw [hmedia, hmediaZip, hv1]
            exact ⟨fun f hf => absurd hf (List.not_mem_nil f),
              fun f hf => absurd hf (List.not_mem_nil f)⟩
      · rw [if_neg h2]
        by_cases h3 : strHas x.name "_media~"
        · rw [if_pos h3]
          refine ⟨odUpd_keys_nodup h.1, ?_⟩
          intro day g hg
          rcases odUpd_mem hg with hold | ⟨v, hgeq, hv⟩
          · exact h.2 day g hold
          · have hday : day = strTake x.name 10 := congrArg Prod.fst hgeq
            have hgv : g = (if strHas x.name "~zip-" = true
                then { v with mediaZip := v.mediaZip ++ [x] }
                else { v with media := v.media ++ [x] }) := congrArg Prod.snd hgeq
            have hvinv : (∀ f ∈ v.media, f ∈ files ∧ strTake f.name 10 = day ∧
                  strHas f.name "~zip-" = false) ∧
                (∀ f ∈ v.mediaZip, f ∈ files ∧ strTake f.name 10 = day ∧
                  strHas f.name "~zip-" = true) := by
              rcases hv with hv1 | hv1
              · exact h.2 day v (by rw [hday]; exact hv1)
              · rw [hv1]
                exact ⟨fun f hf => absurd hf (List.not_mem_nil f),
                  fun f hf => absurd hf (List.not_mem_nil f)⟩
            by_cases hz : strHas x.name "~zip-" = true
            · rw [if_pos hz] at hgv
              rw [hgv]
              refine ⟨hvinv.1, ?_⟩
              intro f hf
              rcases List.mem_append.mp hf with hf1 | hf1
              · exact hvinv.2 f hf1
              · rw [List.mem_singleton.mp hf1]
                exact ⟨hx, hday.symm, hz⟩
            · rw [if_neg hz] at hgv
              rw [hgv]
              refine ⟨?_, hvinv.2⟩
              intro f hf
              rcases List.mem_append.mp hf with hf1 | hf1
              · exact hvinv.1 f hf1
              · rw [List.mem_singleton.mp hf1]
                exact ⟨hx, hday.symm, Bool.not_eq_true _ ▸ eq_false_of_ne_true hz⟩
        · rw [if_neg h3]
          cases hex : extractBid x.name with
          | some i => exact h
          | none => exact h

theorem classFold_sources (files : List MediaFile) :
    ∀ l : List MediaFile, ∀ acc : ClassAcc, (∀ f ∈ l, f ∈ files) →
      ((∀ p ∈ acc.bl, p.2 ∈ files ∧ excludedName p.2.name = false) ∧
       (∀ g ∈ acc.others, g ∈ files ∧ excludedName g.name = false)) →
      (∀ p ∈ (l.foldl classStep acc).bl, p.2 ∈ files ∧ excludedName p.2.name = false) ∧
      (∀ g ∈ (l.foldl classStep acc).others, g ∈ files ∧ excludedName g.name = false) := by
  intro l
  induction l with
  | nil => intro acc _ h; exact h
  | cons x xs ih =>
    intro acc hl h
    have hx : x ∈ files := hl x (List.mem_cons_self _ _)
    rw [List.foldl_cons]
    apply ih _ (fun f hf => hl f (List.mem_cons_of_mem _ hf))
    simp only [classStep]
    by_cases h1 : strHas (lowerStr x.name) "thumbnail"
    · rw [if_pos h1]; exact h
    · rw [if_neg h1]
      by_cases h2 : strHas x.name "_overlay~"
      · rw [if_pos h2]; exact h
      · rw [if_neg h2]
        by_cases h3 : strHas x.name "_media~"
        · rw [if_pos h3]
          refine ⟨h.1, ?_⟩
          intro g hg
          rcases List.mem_append.mp hg with hg1 | hg1
          · exact h.2 g hg1
          · rw [List.mem_singleton.mp hg1]
            refine ⟨hx, ?_⟩
            simp [excludedName, h1, h2, h3]
        · rw [if_neg h3]
          cases hex : extractBid x.name with
          | some i =>
            refine ⟨?_, h.2⟩
            intro p hp
            rcases pyInsert_mem hp with hp1 | hp1
            · exact h.1 p hp1
            · rw [hp1]
              refine ⟨hx, ?_⟩
              simp [excludedName, h1, h2, hex]
          | none => exact h

theorem pairs_src (files : List MediaFile) :
    ∀ pr ∈ (classify_media files).2.2, ∃ day g, (day, g) ∈ (classGroups files).groups ∧
      ((g.media ≠ [] ∧ g.media.length = g.overlay.length ∧
          pr ∈ ((sortByName g.media).map (fun m => m.name)).zip (sortByName g.overlay)) ∨
       (g.mediaZip ≠ [] ∧ g.mediaZip.length = g.overlayZip.length ∧
          pr ∈ ((sortByName g.mediaZip).map (fun m => m.name)).zip (sortByName g.overlayZip))) := by
  intro pr hpr
  unfold classify_media at hpr
  simp only at hpr
  obtain ⟨l, hl, hprl⟩ := List.mem_flatten.mp hpr
  obtain ⟨p, hp, hpe⟩ := List.mem_map.mp hl
  rw [← hpe] at hprl
  refine ⟨p.1, p.2, hp, ?_⟩
  unfold groupPairs at hprl
  rcases List.mem_append.mp hprl with h1 | h1
  · left
    unfold pairFor at h1
    by_cases hc : p.2.media ≠ [] ∧ p.2.media.length = p.2.overlay.length
    · rw [if_pos hc] at h1
      exact ⟨hc.1, hc.2, h1⟩
    · rw [if_neg hc] at h1
      cases h1
  · right
    unfold pairFor at h1
    by_cases hc : p.2.mediaZip ≠ [] ∧ p.2.mediaZip.length = p.2.overlayZip.length
    · rw [if_pos hc] at h1
      exact ⟨hc.1, hc.2, h1⟩
    · rw [if_neg hc] at h1
      cases h1

/-- C8: every overlay pairing comes from a day/archive-origin group whose
primary and overlay lists have exactly equal non-zero length, paired
element-wise after sorting both lists by filename; and a group with unequal
counts contributes no pairing at all — none of its primaries occurs as a
pairing key (pool names assumed distinct, as directory entries are). -/
theorem overlay_pairing_conservative (files : List MediaFile)
    (hnd : (files.map (fun f => f.name)).Nodup) :
    (∀ pr ∈ (classify_media files).2.2, ∃ day g, (day, g) ∈ (classGroups files).groups ∧
      ((g.media ≠ [] ∧ g.media.length = g.overlay.length ∧
          pr ∈ ((sortByName g.media).map (fun m => m.name)).zip (sortByName g.overlay)) ∨
       (g.mediaZip ≠ [] ∧ g.mediaZip.length = g.overlayZip.length ∧
          pr ∈ ((sortByName g.mediaZip).map (fun m => m.name)).zip (sortByName g.overlayZip)))) ∧
    (∀ day g, (day, g) ∈ (classGroups files).groups → ∀ f : MediaFile,
      ((f ∈ g.media ∧ g.media.length ≠ g.overlay.length) ∨
       (f ∈ g.mediaZip ∧ g.mediaZip.length ≠ g.overlayZip.length)) →
      ∀ ov, (f.name, ov) ∉ (classify_media files).2.2) := by
  have hinv := classFold_inv files files ⟨[], [], []⟩ (fun f hf => hf)
    ⟨List.nodup_nil, fun day g hg => absurd hg (List.not_mem_nil _)⟩
  refine ⟨pairs_src files, ?_⟩
  intro day g hg f hf ov hpr
  obtain ⟨day', g', hg', hcase⟩ := pairs_src files (f.name, ov) hpr
  have hfacts : f ∈ files ∧ strTake f.name 10 = day ∧
      (f ∈ g.media → strHas f.name "~zip-" = false) ∧
      (f ∈ g.mediaZip → strHas f.name "~zip-" = true) := by
    rcases hf with ⟨hfm, _⟩ | ⟨hfm, _⟩
    · have := (hinv.2 day g hg).1 f hfm
      exact ⟨this.1, this.2.1, fun _ => this.2.2, fun hm => ((hinv.2 day g hg).2 f hm).2.2⟩
    · have := (hinv.2 day g hg).2 f hfm
      exact ⟨this.1, this.2.1, fun hm => ((hinv.2 day g hg).1 f hm).2.2, fun _ => this.2.2⟩
  rcases hcase with ⟨hne, hlen, hzip⟩ | ⟨hne, hlen, hzip⟩
  · have hkey : f.name ∈ (sortByName g'.media).map (fun m => m.name) :=
      (List.of_mem_zip hzip).1
    obtain ⟨f', hf', hfe⟩ := List.mem_map.mp hkey
    have hf'mem : f' ∈ g'.media := sortByName_mem hf'
    have hf'facts := (hinv.2 day' g' hg').1 f' hf'mem
    have hff' : f = f' :=
      List.inj_on_of_nodup_map hnd hfacts.1 hf'facts.1 hfe.symm
    rcases hf with ⟨hfm, hmis⟩ | ⟨hfm, _⟩
    · have hdays : day = day' := by
        rw [← hfacts.2.1, hff', hf'facts.2.1]
      rw [hdays] at hg
      have hgg' : g = g' := nodupKeys_val_eq hinv.1 hg hg'
      rw [hgg'] at hmis
      exact hmis hlen
    · have hzt := hfacts.2.2.2 hfm
      rw [hff'] at hzt
      rw [hf'facts.2.2] at hzt
      cases hzt
  · have hkey : f.name ∈ (sortByName g'.mediaZip).map (fun m => m.name) :=
      (List.of_mem_zip hzip).1
    obtain ⟨f', hf', hfe⟩ := List.mem_map.mp hkey
    have hf'mem : f' ∈ g'.mediaZip := sortByName_mem hf'
    have hf'facts := (hinv.2 day' g' hg').2 f' hf'mem
    have hff' : f = f' :=
      List.inj_on_of_nodup_map hnd hfacts.1 hf'facts.1 hfe.symm
    rcases hf with ⟨hfm, _⟩ | ⟨hfm, hmis⟩
    · have hzt := hfacts.2.2.1 hfm
      rw [hff'] at hzt
      rw [hf'facts.2.2] at hzt
      cases hzt
    · have hdays : day = day' := by
        rw [← hfacts.2.1, hff', hf'facts.2.1]
      rw [hdays] at hg
      have hgg' : g = g' := nodupKeys_val_eq hinv.1 hg hg'
      rw [hgg'] at hmis
      exact hmis hlen

/-- C8 witness: a day-group with 3 primaries and 2 overlays yields no
pairing for any of its primaries. -/
theorem overlay_pairing_conservative_wit :
    (([⟨"2024-01-01_media~a.jpg", 1⟩, ⟨"2024-01-01_media~b.jpg", 2⟩,
       ⟨"2024-01-01_media~c.jpg", 3⟩, ⟨"2024-01-01_overlay~a.jpg", 4⟩,
       ⟨"2024-01-01_overlay~b.jpg", 5⟩] : List MediaFile).map (fun f => f.name)).Nodup ∧
    ("2024-01-01_media~a.jpg", (⟨"zz", 0⟩ : MediaFile)) ∉
      (classify_media [⟨"2024-01-01_media~a.jpg", 1⟩, ⟨"2024-01-01_media~b.jpg", 2⟩,
        ⟨"2024-01-01_media~c.jpg", 3⟩, ⟨"2024-01-01_overlay~a.jpg", 4⟩,
        ⟨"2024-01-01_overlay~b.jpg", 5⟩]).2.2 := by
  refine ⟨by decide, ?_⟩
  exact (overlay_pairing_conservative
    [⟨"2024-01-01_media~a.jpg", 1⟩, ⟨"2024-01-01_media~b.jpg", 2⟩,
     ⟨"2024-01-01_media~c.jpg", 3⟩, ⟨"2024-01-01_overlay~a.jpg", 4⟩,
     ⟨"2024-01-01_overlay~b.jpg", 5⟩] (by decide)).2
    "2024-01-01"
    ⟨[⟨"2024-01-01_media~a.jpg", 1⟩, ⟨"2024-01-01_media~b.jpg", 2⟩,
      ⟨"2024-01-01_media~c.jpg", 3⟩],
     [⟨"2024-01-01_overlay~a.jpg", 4⟩, ⟨"2024-01-01_overlay~b.jpg", 5⟩], [], []⟩
    (by decide) ⟨"2024-01-01_media~a.jpg", 1⟩ (Or.inl ⟨by decide, by decide⟩) ⟨"zz", 0⟩

/-! ### Lemmas about the per-day media index and orphan lists -/

theorem alookup_odUpd_self {α : Type} (l : List (String × α)) (k : String) (f : α → α)
    (dflt : α) : alookup (odUpd l k f dflt) k = some (f ((alookup l k).getD dflt)) := by
  induction l with
  | nil => simp [odUpd, alookup]
  | cons q rest ih =>
    rcases q with ⟨k', v⟩
    unfold odUpd
    by_cases h : k' = k
    · subst h
      simp [alookup]
    · have hb : (k' == k) = false := beq_eq_false_iff_ne.mpr h
      rw [if_neg h]
      simp only [alookup, List.find?_cons, hb] at ih ⊢
      exact ih

theorem alookup_odUpd_ne {α : Type} (l : List (String × α)) (k k' : String) (f : α → α)
    (dflt : α) (h : k' ≠ k) : alookup (odUpd l k f dflt) k' = alookup l k' := by
  have hb : (k == k') = false := beq_eq_false_iff_ne.mpr (fun he => h he.symm)
  induction l with
  | nil => simp [odUpd, alookup, hb]
  | cons q rest ih =>
    rcases q with ⟨k0, v⟩
    unfold odUpd
    by_cases h0 : k0 = k
    · subst h0
      rw [if_pos rfl]
      simp [alookup, hb]
    · rw [if_neg h0]
      by_cases h1 : k0 = k'
      · have hb1 : (k0 == k') = true := beq_iff_eq.mpr h1
        simp [alookup, hb1]
      · have hb1 : (k0 == k') = false := beq_eq_false_iff_ne.mpr h1
        simp only [alookup, List.find?_cons, hb1] at ih ⊢
        exact ih

theorem pyInsert_keys_mono {α : Type} {l : List (String × α)} {k n : String} {v : α}
    (h : n ∈ l.map (fun p => p.1)) : n ∈ (pyInsert l k v).map (fun p => p.1) := by
  unfold pyInsert
  by_cases hc : l.any (fun q => q.1 == k)
  · rw [if_pos hc]
    obtain ⟨p, hp, hpe⟩ := List.mem_map.mp h
    apply List.mem_map.mpr
    by_cases h2 : p.1 = k
    · exact ⟨(k, v), List.mem_map.mpr ⟨p, hp, by rw [if_pos h2]⟩, by rw [← hpe, h2]⟩
    · exact ⟨p, List.mem_map.mpr ⟨p, hp, by rw [if_neg h2]⟩, hpe⟩
  · rw [if_neg hc]
    rw [List.map_append]
    exact List.mem_append_left _ h

theorem pyInsert_key_self {α : Type} (l : List (String × α)) (k : String) (v : α) :
    k ∈ (pyInsert l k v).map (fun p => p.1) := by
  unfold pyInsert
  by_cases hc : l.any (fun q => q.1 == k)
  · rw [if_pos hc]
    obtain ⟨p, hp, hpe⟩ := List.any_eq_true.mp hc
    apply List.mem_map.mpr
    refine ⟨(k, v), List.mem_map.mpr ⟨p, hp, by rw [if_pos (by exact beq_iff_eq.mp hpe)]⟩, rfl⟩
  · rw [if_neg hc]
    rw [List.map_append]
    exact List.mem_append_right _ (List.mem_singleton.mpr rfl)

theorem mediaByDay_sound (am : List MediaFile) :
    ∀ l : List MediaFile, ∀ acc, (∀ f ∈ l, f ∈ am) →
      (∀ p ∈ acc, ∀ q ∈ p.2, q.2 ∈ am ∧ q.2.name = q.1 ∧ strTake q.1 10 = p.1) →
      ∀ p ∈ l.foldl
          (fun a f => odUpd a (strTake f.name 10) (fun inner => pyInsert inner f.name f) []) acc,
        ∀ q ∈ p.2, q.2 ∈ am ∧ q.2.name = q.1 ∧ strTake q.1 10 = p.1 := by
  intro l
  induction l with
  | nil => intro acc _ h; exact h
  | cons x xs ih =>
    intro acc hl h
    rw [List.foldl_cons]
    apply ih _ (fun f hf => hl f (List.mem_cons_of_mem _ hf))
    intro p hp q hq
    rcases odUpd_mem hp with hold | ⟨v, hpeq, hv⟩
    · exact h p hold q hq
    · have hp1 : p.1 = strTake x.name 10 := by rw [hpeq]
      have hp2 : p.2 = pyInsert v x.name x := by rw [hpeq]
      rw [hp2] at hq
      rcases pyInsert_mem hq with hq1 | hq1
      · rcases hv with hv1 | hv1
        · have := h _ hv1 q hq1
          rw [hp1]
          exact this
        · rw [hv1] at hq1
          cases hq1
      · rw [hq1, hp1]
        exact ⟨hl x (List.mem_cons_self _ _), rfl, rfl⟩

theorem mediaByDay_complete (am : List MediaFile) (f : MediaFile) :
    ∀ l : List MediaFile, ∀ acc,
      (f ∈ l ∨ ∃ inner, alookup acc (strTake f.name 10) = some inner ∧
        f.name ∈ inner.map (fun p => p.1)) →
      ∃ inner, alookup
          (l.foldl (fun a g => odUpd a (strTake g.name 10) (fun i => pyInsert i g.name g) []) acc)
          (strTake f.name 10) = some inner ∧
        f.name ∈ inner.map (fun p => p.1) := by
  intro l
  induction l with
  | nil =>
    intro acc h
    rcases h with h | h
    · cases h
    · exact h
  | cons x xs ih =>
    intro acc h
    rw [List.foldl_cons]
    apply ih
    by_cases hx : f = x
    · right
      subst hx
      refine ⟨_, alookup_odUpd_self acc (strTake f.name 10) _ [], ?_⟩
      exact pyInsert_key_self _ f.name f
    · rcases h with h | ⟨inner, hlk, hmem⟩
      · rcases List.mem_cons.mp h with h1 | h1
        · exact absurd h1 hx
        · exact Or.inl h1
      · right
        by_cases hday : strTake f.name 10 = strTake x.name 10
        · rw [hday]
          refine ⟨_, alookup_odUpd_self acc (strTake x.name 10) _ [], ?_⟩
          rw [← hday, hlk]
          exact pyInsert_keys_mono hmem
        · rw [alookup_odUpd_ne _ _ _ _ _ hday]
          exact ⟨inner, hlk, hmem⟩

theorem alookup_mem {α : Type} {l : List (String × α)} {k : String} {v : α}
    (h : alookup l k = some v) : (k, v) ∈ l := by
  unfold alookup at h
  cases hf : l.find? (fun p => p.1 == k) with
  | none => rw [hf] at h; cases h
  | some q =>
    rw [hf] at h
    have hq0 := List.find?_some hf
    have hq1 : q.1 = k := beq_iff_eq.mp hq0
    have hq2 : q.2 = v := Option.some.inj h
    have : q = (k, v) := Prod.ext hq1 hq2
    exact this ▸ List.mem_of_find?_eq_some hf

theorem copiesOf_copy (pn : List String) (pairs : List (String × MediaFile))
    (day fname : String) : ∀ e ∈ copiesOf pn pairs day fname, ∃ s, e.2 = Entry.mediaCopy s := by
  intro e he
  unfold copiesOf at he
  by_cases h : pn.contains fname
  · rw [if_pos h] at he
    cases halk : alookup pairs fname with
    | some ov =>
      rw [halk] at he
      rcases List.mem_cons.mp he with h1 | h1
      · exact ⟨fname, by rw [h1]⟩
      · exact ⟨ov.name, by rw [List.mem_singleton.mp h1]⟩
    | none =>
      rw [halk] at he
      exact ⟨fname, by rw [List.mem_singleton.mp he]⟩
  · rw [if_neg h] at he
    cases he

theorem dayGen_doc {pn : List String} {pairs : List (String × MediaFile)}
    {gts : List (String × String)} {mbd : List (String × List (String × MediaFile))}
    {day : String} {convs : List (String × List Message)} {pth : List String} {dd : DayData}
    (h : (pth, Entry.doc dd) ∈ dayGen pn pairs gts mbd day convs) :
    dd = dayDataOf pn pairs gts mbd day convs := by
  unfold dayGen at h
  rcases List.mem_append.mp h with h1 | h1
  · rcases List.mem_append.mp h1 with h2 | h2
    · unfold dayCopies at h2
      obtain ⟨l1, hl1, hel1⟩ := List.mem_flatten.mp h2
      obtain ⟨q, _, hq⟩ := List.mem_map.mp hl1
      rw [← hq] at hel1
      obtain ⟨l2, hl2, hel2⟩ := List.mem_flatten.mp hel1
      obtain ⟨m, _, hm⟩ := List.mem_map.mp hl2
      rw [← hm] at hel2
      obtain ⟨l3, hl3, hel3⟩ := List.mem_flatten.mp hel2
      obtain ⟨fn, _, hfn⟩ := List.mem_map.mp hl3
      rw [← hfn] at hel3
      obtain ⟨s, hs⟩ := copiesOf_copy pn pairs day fn _ hel3
      cases hs
    · obtain ⟨g, _, hg⟩ := List.mem_map.mp h2
      have := congrArg Prod.snd hg
      cases this
  · have := List.mem_singleton.mp h1
    exact Entry.doc.inj (congrArg Prod.snd this)

theorem docsOf_mem_write_output {d : Days} {pairs : List (String × MediaFile)}
    {pn : List String} {gts : List (String × String)} {am : List MediaFile} {dd : DayData}
    (h : dd ∈ docsOf (write_output d pairs pn gts am).gen) :
    ∃ day convs, (day, convs) ∈ sortedDays d ∧
      dd = dayDataOf pn pairs gts (mediaByDay am) day convs := by
  unfold docsOf at h
  obtain ⟨e, he, hfe⟩ := List.mem_filterMap.mp h
  rcases e with ⟨pth, ent⟩
  cases ent with
  | mediaCopy s => cases hfe
  | doc dd' =>
    have hdd : dd' = dd := Option.some.inj hfe
    subst hdd
    unfold write_output at he
    simp only at he
    obtain ⟨l, hl, hel⟩ := List.mem_flatten.mp he
    obtain ⟨p, hp, hpe⟩ := List.mem_map.mp hl
    rw [← hpe] at hel
    exact ⟨p.1, p.2, hp, dayGen_doc hel⟩

theorem write_output_mem_docsOf (d : Days) (pairs : List (String × MediaFile))
    (pn : List String) (gts : List (String × String)) (am : List MediaFile)
    {day : String} {convs : List (String × List Message)} (h : (day, convs) ∈ sortedDays d) :
    dayDataOf pn pairs gts (mediaByDay am) day convs
      ∈ docsOf (write_output d pairs pn gts am).gen := by
  unfold docsOf
  apply List.mem_filterMap.mpr
  refine ⟨(["days", day, "conversations.json"],
    Entry.doc (dayDataOf pn pairs gts (mediaByDay am) day convs)), ?_, rfl⟩
  unfold write_output
  simp only
  apply List.mem_flatten.mpr
  refine ⟨dayGen pn pairs gts (mediaByDay am) day convs, List.mem_map_of_mem _ h, ?_⟩
  unfold dayGen
  apply List.mem_append.mpr
  right
  exact List.mem_singleton.mpr rfl

theorem orphanNames_dayData (pn : List String) (pairs : List (String × MediaFile))
    (gts : List (String × String)) (mbd : List (String × List (String × MediaFile)))
    (day : String) (convs : List (String × List Message)) (n : String) :
    n ∈ orphanNamesOf (dayDataOf pn pairs gts mbd day convs) ↔
      ∃ p ∈ orphanItems mbd day, p.2.name = n ∧
        (dayMappedOf pn convs).contains p.1 = false := by
  unfold dayDataOf orphanNamesOf
  simp only
  constructor
  · intro h
    rw [List.map_map] at h
    obtain ⟨f, hf, hfe⟩ := List.mem_map.mp h
    unfold dayOrphans at hf
    obtain ⟨p, hp, hpe⟩ := List.mem_map.mp hf
    obtain ⟨hpmem, hpred⟩ := List.mem_filter.mp hp
    refine ⟨p, hpmem, ?_, ?_⟩
    · rw [hpe]
      exact hfe
    · cases hcontains : (dayMappedOf pn convs).contains p.1
      · rfl
      · rw [hcontains] at hpred
        cases hpred
  · intro h
    obtain ⟨p, hpmem, hname, hcontains⟩ := h
    rw [List.map_map]
    apply List.mem_map.mpr
    refine ⟨p.2, ?_, ?_⟩
    · unfold dayOrphans
      apply List.mem_map.mpr
      refine ⟨p, List.mem_filter.mpr ⟨hpmem, by rw [hcontains]; rfl⟩, rfl⟩
    · rw [← hname]
      rfl

/-- C1 (amended): for a pool-inventory file (distinct pool names, distinct
day keys), (a) the file's name can appear only in the orphan list of the day
document keyed by its own date prefix, and day documents are unique per date,
so it appears in at most one orphan list; (b) if the days structure has a
bucket for the file's date prefix, the file's name appears in that day's
orphan list exactly when it is not in that day's mapped set.  (The original
"exactly once overall, never both, never neither" fails: a file whose date
prefix has no message bucket is neither mapped nor orphaned, and a file
matched cross-day is both mapped there and orphaned in its own day.) -/
theorem media_accounting
    (d : Days) (pairs : List (String × MediaFile)) (pn : List String)
    (gts : List (String × String)) (am : List MediaFile) (f : MediaFile)
    (hf : f ∈ am) (hnd : (am.map (fun g => g.name)).Nodup)
    (hdk : (d.map (fun p => p.1)).Nodup) :
    (∀ dd ∈ docsOf (write_output d pairs pn gts am).gen,
      f.name ∈ orphanNamesOf dd → dd.date = strTake f.name 10) ∧
    (∀ dd1 ∈ docsOf (write_output d pairs pn gts am).gen,
      ∀ dd2 ∈ docsOf (write_output d pairs pn gts am).gen, dd1.date = dd2.date → dd1 = dd2) ∧
    (∀ convs, (strTake f.name 10, convs) ∈ d →
      ∃ dd ∈ docsOf (write_output d pairs pn gts am).gen, dd.date = strTake f.name 10 ∧
        (f.name ∈ orphanNamesOf dd ↔ f.name ∉ dayMappedOf pn convs)) := by
  have hsound : ∀ p ∈ mediaByDay am, ∀ q ∈ p.2,
      q.2 ∈ am ∧ q.2.name = q.1 ∧ strTake q.1 10 = p.1 :=
    mediaByDay_sound am am [] (fun _ h => h) (fun p hp => absurd hp (List.not_mem_nil _))
  have hbfacts : ∀ day : String, ∀ p ∈ orphanItems (mediaByDay am) day,
      p.2 ∈ am ∧ p.2.name = p.1 ∧ strTake p.1 10 = day := by
    intro day p hpmem
    have hpbucket : p ∈ alookupD (mediaByDay am) day [] :=
      (insSortBy_perm _ _).mem_iff.mp hpmem
    unfold alookupD at hpbucket
    cases hlk : alookup (mediaByDay am) day with
    | none =>
      rw [hlk] at hpbucket
      simp at hpbucket
    | some inner =>
      rw [hlk] at hpbucket
      simp only [Option.getD_some] at hpbucket
      exact hsound (day, inner) (alookup_mem hlk) p hpbucket
  refine ⟨?_, ?_, ?_⟩
  · intro dd hdd hn
    obtain ⟨day, convs, hmem, hdeq⟩ := docsOf_mem_write_output hdd
    subst hdeq
    obtain ⟨p, hpmem, hpname, -⟩ := (orphanNames_dayData pn pairs gts _ day convs _).mp hn
    have hq := hbfacts day p hpmem
    have hdate : (dayDataOf pn pairs gts (mediaByDay am) day convs).date = day := rfl
    rw [hdate, ← hq.2.2]
    rw [show p.1 = f.name from by rw [← hq.2.1, hpname]]
  · intro dd1 h1 dd2 h2 hdate
    obtain ⟨day1, convs1, hm1, he1⟩ := docsOf_mem_write_output h1
    obtain ⟨day2, convs2, hm2, he2⟩ := docsOf_mem_write_output h2
    have hd1 : dd1.date = day1 := by rw [he1]; rfl
    have hd2 : dd2.date = day2 := by rw [he2]; rfl
    have hdays : day1 = day2 := by rw [← hd1, ← hd2, hdate]
    subst hdays
    have hkeysnodup : ((sortedDays d).map (fun p => p.1)).Nodup :=
      (((insSortBy_perm _ d).map (fun p => p.1)).nodup_iff).mpr hdk
    have hconv : convs1 = convs2 := nodupKeys_val_eq hkeysnodup hm1 hm2
    rw [he1, he2, hconv]
  · intro convs hconvs
    have hmemsorted : (strTake f.name 10, convs) ∈ sortedDays d :=
      (insSortBy_perm _ d).mem_iff.mpr hconvs
    refine ⟨dayDataOf pn pairs gts (mediaByDay am) (strTake f.name 10) convs,
      write_output_mem_docsOf d pairs pn gts am hmemsorted, rfl, ?_⟩
    rw [orphanNames_dayData]
    constructor
    · rintro ⟨p, hpmem, hpname, hpc⟩ hmemdm
      have hq := hbfacts _ p hpmem
      have hp1 : p.1 = f.name := by rw [← hq.2.1, hpname]
      rw [hp1] at hpc
      have hct : (dayMappedOf pn convs).contains f.name = true := List.elem_iff.mpr hmemdm
      rw [hct] at hpc
      cases hpc
    · intro hnot
      obtain ⟨inner, hlk, hkey⟩ :=
        mediaByDay_complete am f am [] (Or.inl hf)
      have hlk' : alookup (mediaByDay am) (strTake f.name 10) = some inner := hlk
      obtain ⟨q, hq, hqe⟩ := List.mem_map.mp hkey
      have hqitems : q ∈ orphanItems (mediaByDay am) (strTake f.name 10) := by
        apply (insSortBy_perm _ _).mem_iff.mpr
        unfold alookupD
        rw [hlk']
        exact hq
      have hqf := hbfacts _ q hqitems
      refine ⟨q, hqitems, by rw [hqf.2.1, hqe], ?_⟩
      cases hc : (dayMappedOf pn convs).contains q.1
      · rfl
      · exfalso
        apply hnot
        rw [← hqe]
        exact List.elem_iff.mp hc

/-- C1 counterexample: with one chat message on 2024-01-01 and one residual
media file whose date prefix is 2024-03-10 (a day with no message bucket),
the finished run leaves the file in no message's matched list and in no
orphan list — it is accounted for zero times, not exactly once. -/
theorem media_accounting_cx :
    runPipeline [⟨"2024-03-10_media~aaa.jpg", 0⟩]
        [("alice", [{ Created := "2024-01-01T00:00:00", createdUs := 0 }])] []
      = some ((runPipeline [⟨"2024-03-10_media~aaa.jpg", 0⟩]
          [("alice", [{ Created := "2024-01-01T00:00:00", createdUs := 0 }])] []).getD
            ⟨[], [], [], 0⟩) ∧
    msgsContaining ((runPipeline [⟨"2024-03-10_media~aaa.jpg", 0⟩]
        [("alice", [{ Created := "2024-01-01T00:00:00", createdUs := 0 }])] []).getD
          ⟨[], [], [], 0⟩).days "2024-03-10_media~aaa.jpg" = 0 ∧
    orphanOcc ((runPipeline [⟨"2024-03-10_media~aaa.jpg", 0⟩]
        [("alice", [{ Created := "2024-01-01T00:00:00", createdUs := 0 }])] []).getD
          ⟨[], [], [], 0⟩).gen "2024-03-10_media~aaa.jpg" = 0 ∧
    ¬ accountedOnce ((runPipeline [⟨"2024-03-10_media~aaa.jpg", 0⟩]
        [("alice", [{ Created := "2024-01-01T00:00:00", createdUs := 0 }])] []).getD
          ⟨[], [], [], 0⟩) "2024-03-10_media~aaa.jpg" := by
  exact ⟨by decide, by decide, by decide, by decide⟩

/-- C1 witness: a run whose single media file's day does have a bucket; its
document is the unique one for that date and the orphan-membership
equivalence holds there. -/
theorem media_accounting_wit :
    ((([⟨"2024-03-10_media~aaa.jpg", 0⟩] : List MediaFile).map (fun g => g.name)).Nodup ∧
      (([("2024-03-10", [("alice", [{ Created := "2024-03-10T10:00:00", createdUs := 9 }])])] :
        Days).map (fun p => p.1)).Nodup) ∧
    (∃ dd ∈ docsOf (write_output
        [("2024-03-10", [("alice", [{ Created := "2024-03-10T10:00:00", createdUs := 9 }])])]
        [] ["2024-03-10_media~aaa.jpg"] [] [⟨"2024-03-10_media~aaa.jpg", 0⟩]).gen,
      dd.date = strTake "2024-03-10_media~aaa.jpg" 10 ∧
        ("2024-03-10_media~aaa.jpg" ∈ orphanNamesOf dd ↔
          "2024-03-10_media~aaa.jpg" ∉ dayMappedOf ["2024-03-10_media~aaa.jpg"]
            [("alice", [{ Created := "2024-03-10T10:00:00", createdUs := 9 }])])) := by
  refine ⟨⟨by decide, by decide⟩, ?_⟩
  exact (media_accounting
    [("2024-03-10", [("alice", [{ Created := "2024-03-10T10:00:00", createdUs := 9 }])])]
    [] ["2024-03-10_media~aaa.jpg"] [] [⟨"2024-03-10_media~aaa.jpg", 0⟩]
    ⟨"2024-03-10_media~aaa.jpg", 0⟩ (by decide) (by decide) (by decide)).2.2
    [("alice", [{ Created := "2024-03-10T10:00:00", createdUs := 9 }])] (by decide)

/-! ### Lemmas for the exclusion of non-inventory files -/

theorem countConv_eq_flatten (conv : List (String × List Message)) (n : String) :
    countConv conv n = (convFlatten conv).countP (fun p => decide (n ∈ p.2.mediaFilenames)) := by
  induction conv with
  | nil => rfl
  | cons q rest ih =>
    unfold countConv at ih ⊢
    rw [convFlatten_cons]
    simp only [List.map_cons, List.sum_cons, List.countP_append, ih, List.countP_map]
    rfl

theorem msgsContaining_eq_flatten (d : Days) (n : String) :
    msgsContaining d n = (daysFlatten d).countP (fun p => decide (n ∈ p.2.mediaFilenames)) := by
  induction d with
  | nil => rfl
  | cons p rest ih =>
    unfold msgsContaining at ih ⊢
    rw [daysFlatten_cons]
    simp only [List.map_cons, List.sum_cons, List.countP_append]
    rw [countConv_eq_flatten, ih]

theorem build_days_count_zero (chat snap : List (String × List Message)) (n : String)
    (hinit : ∀ p ∈ chat, ∀ m ∈ p.2, m.mediaFilenames = []) :
    msgsContaining (build_days chat snap).1 n = 0 := by
  rw [msgsContaining_eq_flatten]
  have hperm : daysFlatten (build_days chat snap).1 ~ chatFlat chat ++ snapFlat snap := by
    have hd : (build_days chat snap).1 =
        snap.foldl (fun d p => p.2.foldl (fun d' m => addMsg d' p.1 (snapProject m)) d)
          (chat.foldl (fun d p => p.2.foldl (fun d' m => addMsg d' p.1 (chatTag m)) d) []) := by
      unfold build_days
      rw [buildSnap_days, buildChat_days]
    rw [hd]
    refine (daysFlatten_foldConvs snapProject snap _).trans ?_
    exact (daysFlatten_foldConvs chatTag chat []).append_right _
  rw [hperm.countP_eq]
  rw [List.countP_append]
  have h1 : (chatFlat chat).countP (fun p => decide (n ∈ p.2.mediaFilenames)) = 0 := by
    apply List.countP_eq_zero.mpr
    intro a ha
    unfold chatFlat at ha
    obtain ⟨l, hl, hal⟩ := List.mem_flatten.mp ha
    obtain ⟨p, hp, hpe⟩ := List.mem_map.mp hl
    rw [← hpe] at hal
    obtain ⟨m, hm, hme⟩ := List.mem_map.mp hal
    have : a.2.mediaFilenames = [] := by
      rw [← hme]
      exact hinit p hp m hm
    simp [this]
  have h2 : (snapFlat snap).countP (fun p => decide (n ∈ p.2.mediaFilenames)) = 0 := by
    apply List.countP_eq_zero.mpr
    intro a ha
    unfold snapFlat at ha
    obtain ⟨l, hl, hal⟩ := List.mem_flatten.mp ha
    obtain ⟨p, hp, hpe⟩ := List.mem_map.mp hl
    rw [← hpe] at hal
    obtain ⟨m, hm, hme⟩ := List.mem_map.mp hal
    have : a.2.mediaFilenames = [] := by
      rw [← hme]
      rfl
    simp [this]
  rw [h1, h2]

theorem pass1Msg_mem_iff (bl : List (String × MediaFile)) (m : Message) (n : String)
    (hn : ∀ p ∈ bl, p.2.name ≠ n) :
    (n ∈ (pass1Msg bl m).mediaFilenames) ↔ n ∈ m.mediaFilenames := by
  unfold pass1Msg
  simp only
  rw [List.mem_append]
  constructor
  · intro h
    rcases h with h | h
    · exact h
    · exfalso
      obtain ⟨i, _, hie⟩ := List.mem_filterMap.mp h
      cases hlk : alookup bl i with
      | none => rw [hlk] at hie; cases hie
      | some g =>
        rw [hlk] at hie
        exact hn (i, g) (alookup_mem hlk) (Option.some.inj hie)
  · exact Or.inl

theorem pass1Days_count (bl : List (String × MediaFile)) (d : Days) (n : String)
    (hn : ∀ p ∈ bl, p.2.name ≠ n) :
    msgsContaining (pass1Days bl d) n = msgsContaining d n := by
  unfold pass1Days msgsContaining
  rw [List.map_map]
  congr 1
  apply List.map_congr_left
  intro p _
  simp only [Function.comp_apply]
  unfold countConv
  rw [List.map_map]
  congr 1
  apply List.map_congr_left
  intro q _
  simp only [Function.comp_apply]
  unfold countIn
  rw [List.countP_map]
  have hsort := (insSortBy_perm (fun a b => decide (a.createdUs ≤ b.createdUs)) q.2).countP_eq
    (fun m => decide (n ∈ m.mediaFilenames))
  calc (sortMsgs q.2).countP
        ((fun m => decide (n ∈ m.mediaFilenames)) ∘ pass1Msg bl)
      = (sortMsgs q.2).countP (fun m => decide (n ∈ m.mediaFilenames)) := by
        apply List.countP_congr
        intro m _
        simp only [Function.comp_apply, decide_eq_true_eq]
        exact pass1Msg_mem_iff bl m n hn
    _ = q.2.countP (fun m => decide (n ∈ m.mediaFilenames)) := hsort

theorem enrichDays_count (pn : List String) (pairs : List (String × MediaFile)) (d : Days)
    (n : String) :
    msgsContaining (enrichDays pn pairs d) n = msgsContaining d n := by
  unfold enrichDays enrichConvs msgsContaining
  rw [List.map_map]
  congr 1
  apply List.map_congr_left
  intro p _
  simp only [Function.comp_apply]
  unfold countConv
  rw [List.map_map]
  congr 1
  apply List.map_congr_left
  intro q _
  simp only [Function.comp_apply]
  unfold countIn
  rw [List.countP_map]
  apply List.countP_congr
  intro m _
  simp only [Function.comp_apply]
  rw [enrichMsg_mediaFilenames]

/-- C10: a pool file skipped by classification — thumbnail marker
(case-insensitive), overlay marker, or no recognized pattern — never enters
the correlated inventory, so after the whole run its name appears in no
message's matched list and in no day document's orphan list (in particular
an overlay file from a count-mismatched group is neither mapped nor
orphaned). -/
theorem excluded_media_invisible
    (files : List MediaFile) (chat snap : List (String × List Message))
    (f : MediaFile) (hf : f ∈ files) (hex : excludedName f.name = true)
    (hnd : (files.map (fun g => g.name)).Nodup)
    (hinit : ∀ p ∈ chat, ∀ m ∈ p.2, m.mediaFilenames = [])
    (res : OutRes) (hrun : runPipeline files chat snap = some res) :
    msgsContaining res.days f.name = 0 ∧ orphanOcc res.gen f.name = 0 := by
  have hsrc := classFold_sources files files ⟨[], [], []⟩ (fun _ h => h)
    ⟨fun p hp => absurd hp (List.not_mem_nil _), fun g hg => absurd hg (List.not_mem_nil _)⟩
  have hninv : ∀ g : MediaFile,
      (g ∈ (classGroups files).bl.map (fun p => p.2) ∨ g ∈ (classGroups files).others) →
      g.name ≠ f.name := by
    intro g hg hname
    have hfacts : g ∈ files ∧ excludedName g.name = false := by
      rcases hg with hg | hg
      · obtain ⟨p, hp, hpe⟩ := List.mem_map.mp hg
        rw [← hpe]
        exact hsrc.1 p hp
      · exact hsrc.2 g hg
    have hgf : g = f := List.inj_on_of_nodup_map hnd hfacts.1 hf hname
    rw [hgf] at hfacts
    rw [hfacts.2] at hex
    cases hex
  simp only [runPipeline] at hrun
  obtain ⟨days2, hp2, hres⟩ := Option.map_eq_some'.mp hrun
  subst hres
  have hcount2 : msgsContaining days2 f.name = 0 := by
    have h0 : msgsContaining (build_days chat snap).1 f.name = 0 :=
      build_days_count_zero chat snap f.name hinit
    have h1 : msgsContaining (pass1Days (classify_media files).1 (build_days chat snap).1)
        f.name = 0 := by
      rw [pass1Days_count]
      · exact h0
      · intro p hp
        exact hninv p.2 (Or.inl (List.mem_map_of_mem _ hp))
    have htsf : ∀ e ∈ tsFiles (classify_media files).1
        (pass1MatchedB (classify_media files).1 (build_days chat snap).1)
        (classify_media files).2.1, e.2.2 ≠ f.name := by
      intro e he
      unfold tsFiles at he
      rcases List.mem_append.mp he with h2 | h2
      · obtain ⟨p, hp, hpe⟩ := List.mem_map.mp h2
        rw [← hpe]
        exact hninv p.2 (Or.inl (List.mem_map_of_mem _ (List.mem_of_mem_filter hp)))
      · obtain ⟨g, hg, hge⟩ := List.mem_map.mp h2
        rw [← hge]
        exact hninv g (Or.inr hg)
    rw [pass2_preserves f.name _ htsf _ days2 hp2]
    exact h1
  constructor
  · have hd : (write_output days2 (classify_media files).2.2 (files.map (fun g => g.name))
        (build_days chat snap).2
        ((classify_media files).1.map (fun p => p.2) ++ (classify_media files).2.1)).days
        = enrichDays (files.map (fun g => g.name)) (classify_media files).2.2 days2 := rfl
    rw [hd, enrichDays_count]
    exact hcount2
  · unfold orphanOcc
    apply List.sum_eq_zero
    intro x hx
    obtain ⟨dd, hdd, hde⟩ := List.mem_map.mp hx
    rw [← hde]
    apply List.count_eq_zero.mpr
    intro hmem
    obtain ⟨day, convs, hmemd, hdeq⟩ := docsOf_mem_write_output hdd
    rw [hdeq] at hmem
    obtain ⟨p, hpmem, hpname, -⟩ :=
      (orphanNames_dayData _ _ _ _ day convs _).mp hmem
    have hsound : ∀ q ∈ mediaByDay ((classify_media files).1.map (fun p => p.2)
        ++ (classify_media files).2.1), ∀ r ∈ q.2,
        r.2 ∈ ((classify_media files).1.map (fun p => p.2) ++ (classify_media files).2.1) ∧
        r.2.name = r.1 ∧ strTake r.1 10 = q.1 :=
      mediaByDay_sound _ _ [] (fun _ h => h) (fun q hq => absurd hq (List.not_mem_nil _))
    have hpbucket : p ∈ alookupD (mediaByDay ((classify_media files).1.map (fun p => p.2)
        ++ (classify_media files).2.1)) day [] :=
      (insSortBy_perm _ _).mem_iff.mp hpmem
    unfold alookupD at hpbucket
    cases hlk : alookup (mediaByDay ((classify_media files).1.map (fun p => p.2)
        ++ (classify_media files).2.1)) day with
    | none =>
      rw [hlk] at hpbucket
      simp at hpbucket
    | some inner =>
      rw [hlk] at hpbucket
      simp only [Option.getD_some] at hpbucket
      have hq := hsound (day, inner) (alookup_mem hlk) p hpbucket
      rcases List.mem_append.mp hq.1 with h3 | h3
      · exact hninv p.2 (Or.inl h3) hpname
      · exact hninv p.2 (Or.inr h3) hpname

/-- C10 witness: a thumbnail-marked pool file run through the pipeline shows
up in no matched list and no orphan list. -/
theorem excluded_media_invisible_wit :
    excludedName "2024-01-01_thumbnail~a.jpg" = true ∧
    msgsContaining ((runPipeline [⟨"2024-01-01_thumbnail~a.jpg", 0⟩]
        [("alice", [{ Created := "2024-01-01T00:00:00", createdUs := 0 }])] []).getD
          ⟨[], [], [], 0⟩).days "2024-01-01_thumbnail~a.jpg" = 0 ∧
    orphanOcc ((runPipeline [⟨"2024-01-01_thumbnail~a.jpg", 0⟩]
        [("alice", [{ Created := "2024-01-01T00:00:00", createdUs := 0 }])] []).getD
          ⟨[], [], [], 0⟩).gen "2024-01-01_thumbnail~a.jpg" = 0 := by
  refine ⟨by decide, ?_⟩
  exact excluded_media_invisible [⟨"2024-01-01_thumbnail~a.jpg", 0⟩]
    [("alice", [{ Created := "2024-01-01T00:00:00", createdUs := 0 }])] []
    ⟨"2024-01-01_thumbnail~a.jpg", 0⟩ (by decide) (by decide) (by decide) (by decide)
    ((runPipeline [⟨"2024-01-01_thumbnail~a.jpg", 0⟩]
      [("alice", [{ Created := "2024-01-01T00:00:00", createdUs := 0 }])] []).getD
        ⟨[], [], [], 0⟩) (by decide)
